import Mathlib

/-!
Verification development for the `enhance` photo-enhancement core.

The definitions below are a shallow embedding of the Python sources:
  * `src/enhance/lib/file.py`   — masks, applied operations, output files, replay
  * `src/enhance/op/model_runner.py` — `combine_masks`, `ModelRunner.runOnExisting`
  * `src/enhance/op/simple_tile_processor.py` — the tile processor
  * `src/enhance/app.py`        — `App.rerunOperationChain`
  * `src/enhance/ui/ui_wrap.py` — strength / mask edit dispatch

Machine integers are modelled as `ℕ`, image samples as `ℚ` (exact arithmetic),
images as index functions with explicit dimensions, the file system as a
partial map from paths to images, and opaque library capabilities (the neural
model, bicubic interpolation, cv2 resizes) as function parameters.
-/

namespace Enhance

/-! ### Masks and input files (`src/enhance/lib/file.py`, class `Mask` / `InputFile`) -/

/-- Embedding of `Mask.__init__`: detection score, base label, unique label,
inversion flag, and the weight-field payload (shape `mh × mw`, values `vals`). -/
structure Mask where
  score : ℚ
  label : String
  uniqueLabel : String
  inverted : Bool
  mh : ℕ
  mw : ℕ
  vals : ℕ → ℕ → ℚ

/-- Embedding of `InputFile`: the list of masks attached to a base image. -/
structure InputFile where
  masks : List Mask

/-- Helper for the (unreachable) rename branch of `InputFile.addMask`:
`existing[0].uniqueLabel = f"{label}_1"` mutates the first mask in the list
whose base label matches. -/
def renameFirst (lab : String) : List Mask → List Mask
  | [] => []
  | m :: rest =>
    if m.label = lab then { m with uniqueLabel := lab ++ "_1" } :: rest
    else m :: renameFirst lab rest

/-- Embedding of `InputFile.addMask`.  `count` is the number of existing masks
sharing the new mask's base label; when it is positive the new mask gets
`label_{count+1}`.  When it is zero the source re-filters the same list (so
`existing` is necessarily empty) and falls through to the bare label; the
rename-to-`label_1` branch is kept for fidelity but is unreachable. -/
def addMask (f : InputFile) (mk : Mask) : InputFile :=
  let count := (f.masks.filter (fun m => m.label = mk.label)).length
  if 0 < count then
    { f with masks := f.masks ++ [{ mk with uniqueLabel := mk.label ++ "_" ++ toString (count + 1) }] }
  else
    let existing := f.masks.filter (fun m => m.label = mk.label)
    if existing.isEmpty then
      { f with masks := f.masks ++ [{ mk with uniqueLabel := mk.label }] }
    else
      { f with masks := renameFirst mk.label f.masks ++ [{ mk with uniqueLabel := mk.label ++ "_2" }] }

/-- Convenience constructor for concrete masks used in witnesses. -/
def mkSimpleMask (lab : String) (inv : Bool) (h w : ℕ) (v : ℕ → ℕ → ℚ) : Mask :=
  { score := 1, label := lab, uniqueLabel := lab, inverted := inv, mh := h, mw := w, vals := v }

/-- Unique-label sequence actually produced for a run of masks sharing one base
label, when `start` same-labelled masks are already present: the bare label for
the very first, `label_(k+1)` for the `k`-th overall (`k ≥ 1`). -/
def dupLabels (L : String) (start : ℕ) : ℕ → List String
  | 0 => []
  | n + 1 =>
    (if start = 0 then L else L ++ "_" ++ toString (start + 1)) :: dupLabels L (start + 1) n

theorem addMask_char (f : InputFile) (m : Mask) (L : String)
    (hf : ∀ x ∈ f.masks, x.label = L) (hm : m.label = L) :
    addMask f m = { f with masks := f.masks ++
      [{ m with uniqueLabel :=
          if f.masks.length = 0 then m.label
          else m.label ++ "_" ++ toString (f.masks.length + 1) }] } := by
  have hfilter : f.masks.filter (fun x => x.label = m.label) = f.masks := by
    apply List.filter_eq_self.mpr
    intro a ha
    simp [hf a ha, hm]
  unfold addMask
  rw [hfilter]
  rcases Nat.eq_zero_or_pos f.masks.length with h0 | h0
  · have : f.masks = [] := List.length_eq_zero.mp h0
    simp [this]
  · have h1 : ¬ f.masks.length = 0 := by omega
    simp [h0, h1]

theorem addMask_run (L : String) :
    ∀ (ms : List Mask) (f : InputFile),
      (∀ m ∈ ms, m.label = L) → (∀ x ∈ f.masks, x.label = L) →
      (ms.foldl addMask f).masks.map Mask.uniqueLabel =
        f.masks.map Mask.uniqueLabel ++ dupLabels L f.masks.length ms.length := by
  intro ms
  induction ms with
  | nil => intro f _ _; simp [dupLabels]
  | cons m rest ih =>
    intro f hms hf
    have hmL : m.label = L := hms m (List.mem_cons_self m rest)
    have hstep := addMask_char f m L hf hmL
    have hlab2 : ∀ x ∈ (addMask f m).masks, x.label = L := by
      rw [hstep]
      intro x hx
      rcases List.mem_append.mp hx with hx1 | hx2
      · exact hf x hx1
      · simp only [List.mem_singleton] at hx2
        rw [hx2]
        exact hmL
    have := ih (addMask f m) (fun x hx => hms x (List.mem_cons_of_mem m hx)) hlab2
    show ((rest.foldl addMask (addMask f m)).masks).map Mask.uniqueLabel = _
    rw [this, hstep]
    simp only [List.map_append, List.length_append, List.length_cons, List.map_cons,
      List.map_nil, List.length_nil, List.length_cons, List.append_assoc, List.length_cons]
    congr 1
    have hn : f.masks.length + (0 + 1) = f.masks.length + 1 := by omega
    rw [hn]
    show _ = dupLabels L f.masks.length (rest.length + 1)
    rcases Nat.eq_zero_or_pos f.masks.length with h0 | h0
    · simp [dupLabels, h0, hmL]
    · have h1 : ¬ f.masks.length = 0 := by omega
      simp [dupLabels, h1, hmL]

/-- Concrete two-mask scenario used to refute claim C9. -/
def c9InputFile : InputFile :=
  addMask (addMask ⟨[]⟩ (mkSimpleMask "person" false 1 1 (fun _ _ => 1)))
    (mkSimpleMask "person" false 1 1 (fun _ _ => 1))

/-- Claim C9 is false on the code: adding two masks with the same base label
"person" to an `InputFile` yields unique labels `person, person_2` — the first
duplicate-labelled mask receives `person_2`, not the claimed `person_1` (the
rename-to-`_1` branch of `addMask` is unreachable). -/
theorem claim9_counterexample :
    c9InputFile.masks.map Mask.uniqueLabel = ["person", "person_2"] ∧
      (["person", "person_2"] : List String) ≠ ["person", "person_1"] := by
  constructor
  · rfl
  · decide

/-- Claim C9 amended: for every sequence of masks sharing one base label added
through `addMask` to a fresh `InputFile`, the assigned unique labels form the
sequence `label, label_2, label_3, …` — the k-th duplicate (k ≥ 2) is labelled
`label_k`, and `label_1` is never assigned. -/
theorem claim9_amended (L : String) (ms : List Mask) (hlab : ∀ m ∈ ms, m.label = L) :
    (ms.foldl addMask ⟨[]⟩).masks.map Mask.uniqueLabel = dupLabels L 0 ms.length := by
  have := addMask_run L ms ⟨[]⟩ hlab (by intro x hx; cases hx)
  simpa using this

/-- Witness for `claim9_amended` at a concrete two-mask input. -/
theorem claim9_witness :
    (∀ m ∈ [mkSimpleMask "cat" false 1 1 (fun _ _ => 0),
            mkSimpleMask "cat" true 2 2 (fun _ _ => 1)], m.label = "cat") ∧
    (([mkSimpleMask "cat" false 1 1 (fun _ _ => 0),
       mkSimpleMask "cat" true 2 2 (fun _ _ => 1)].foldl addMask ⟨[]⟩).masks.map
         Mask.uniqueLabel = dupLabels "cat" 0 2) := by
  have hlab : ∀ m ∈ [mkSimpleMask "cat" false 1 1 (fun _ _ => 0),
      mkSimpleMask "cat" true 2 2 (fun _ _ => 1)], m.label = "cat" := by
    intro m hm
    rcases List.mem_cons.mp hm with h | hm2
    · rw [h]; rfl
    · rcases List.mem_cons.mp hm2 with h | hm3
      · rw [h]; rfl
      · cases hm3
  exact ⟨hlab, claim9_amended "cat" _ hlab⟩

/-! ### Mask combination (`src/enhance/op/model_runner.py`, `combine_masks`) -/

/-- Pixel weight fields, indexed (row, column). -/
abbrev Field := ℕ → ℕ → ℚ

/-- Row-major flattening of a field over its `h × w` shape (numpy flattens an
array before taking `max()`). -/
def flatVals (h w : ℕ) (f : Field) : List ℚ :=
  (List.range h).flatMap (fun i => (List.range w).map (fun j => f i j))

/-- Embedding of `mask_arr.max()` as used by `combine_masks`.  The fold is
seeded with `0`, which agrees with numpy on both uses: the guard
`mask_arr.max() > 1.0` holds iff `max 0 (true max) > 1`, and whenever the guard
holds the seeded fold equals the true maximum (the divisor). -/
def fieldMax (h w : ℕ) (f : Field) : ℚ :=
  (flatVals h w f).foldl max 0

/-- Embedding of the per-mask normalization in `combine_masks`:
`if mask_arr.max() > 1.0: mask_arr = mask_arr / mask_arr.max()`. -/
def normalizeArr (m : Mask) : Field :=
  if 1 < fieldMax m.mh m.mw m.vals then fun i j => m.vals i j / fieldMax m.mh m.mw m.vals
  else m.vals

/-- Combined weight field with the shape taken from the first mask
(`shape = masks[0].mask.shape`). -/
structure WeightField where
  fh : ℕ
  fw : ℕ
  vals : Field

/-- Body of `combine_masks` on a non-empty list: inside (non-inverted) masks
are max-combined starting from zeros (`np.zeros` then `np.maximum`), or
replaced by the all-ones field when there are none, then each outside
(inverted) mask is min-combined as `1 - mask` (`np.minimum`). -/
def combineField (masks : List Mask) : Field :=
  let inside := masks.filter (fun m => !m.inverted)
  let outside := masks.filter (fun m => m.inverted)
  let insideCombined : Field :=
    if inside.isEmpty then fun _ _ => 1
    else inside.foldl (fun c m => fun i j => max (c i j) (normalizeArr m i j)) (fun _ _ => 0)
  outside.foldl (fun c m => fun i j => min (c i j) (1 - normalizeArr m i j)) insideCombined

/-- Embedding of `combine_masks`: `None` on an empty list, otherwise the
combined field with the first mask's shape. -/
def combine_masks (masks : List Mask) : Option WeightField :=
  match masks with
  | [] => none
  | m0 :: _ => some { fh := m0.mh, fw := m0.mw, vals := combineField masks }

theorem foldl_max_le (B : ℚ) : ∀ (l : List ℚ) (a : ℚ), a ≤ B → (∀ x ∈ l, x ≤ B) →
    l.foldl max a ≤ B := by
  intro l
  induction l with
  | nil => intro a ha _; simpa using ha
  | cons x t ih =>
    intro a ha hl
    have hx : x ≤ B := hl x (List.mem_cons_self x t)
    exact ih (max a x) (max_le ha hx) (fun y hy => hl y (List.mem_cons_of_mem x hy))

theorem le_foldl_max_seed : ∀ (l : List ℚ) (a : ℚ), a ≤ l.foldl max a := by
  intro l
  induction l with
  | nil => intro a; simp
  | cons x t ih =>
    intro a
    exact le_trans (le_max_left a x) (ih (max a x))

theorem le_foldl_max_mem : ∀ (l : List ℚ) (a x : ℚ), x ∈ l → x ≤ l.foldl max a := by
  intro l
  induction l with
  | nil => intro a x hx; cases hx
  | cons y t ih =>
    intro a x hx
    rcases List.mem_cons.mp hx with h | h
    · subst h
      exact le_trans (le_max_right a x) (le_foldl_max_seed t (max a x))
    · exact ih (max a y) x h

theorem foldl_min_ge (B : ℚ) : ∀ (l : List ℚ) (a : ℚ), B ≤ a → (∀ x ∈ l, B ≤ x) →
    B ≤ l.foldl min a := by
  intro l
  induction l with
  | nil => intro a ha _; simpa using ha
  | cons x t ih =>
    intro a ha hl
    have hx : B ≤ x := hl x (List.mem_cons_self x t)
    exact ih (min a x) (le_min ha hx) (fun y hy => hl y (List.mem_cons_of_mem x hy))

theorem foldl_min_le_seed : ∀ (l : List ℚ) (a : ℚ), l.foldl min a ≤ a := by
  intro l
  induction l with
  | nil => intro a; simp
  | cons x t ih =>
    intro a
    exact le_trans (ih (min a x)) (min_le_left a x)

theorem foldl_min_le_mem : ∀ (l : List ℚ) (a x : ℚ), x ∈ l → l.foldl min a ≤ x := by
  intro l
  induction l with
  | nil => intro a x hx; cases hx
  | cons y t ih =>
    intro a x hx
    rcases List.mem_cons.mp hx with h | h
    · subst h
      exact le_trans (foldl_min_le_seed t (min a x)) (min_le_right a x)
    · exact ih (min a y) x h

theorem foldl_min_min : ∀ (l : List ℚ) (a b : ℚ), l.foldl min (min a b) = min a (l.foldl min b) := by
  intro l
  induction l with
  | nil => intro a b; rfl
  | cons x t ih =>
    intro a b
    show List.foldl min (min (min a b) x) t = min a (List.foldl min (min b x) t)
    rw [min_assoc, ih]

theorem foldl_lift2_apply {α : Type} (op : ℚ → ℚ → ℚ) (g : α → ℕ → ℕ → ℚ) :
    ∀ (l : List α) (c : Field) (i j : ℕ),
      (l.foldl (fun c m => fun i j => op (c i j) (g m i j)) c) i j =
        l.foldl (fun a m => op a (g m i j)) (c i j) := by
  intro l
  induction l with
  | nil => intro c i j; rfl
  | cons x t ih =>
    intro c i j
    exact ih (fun i j => op (c i j) (g x i j)) i j

theorem mem_flatVals (h w : ℕ) (f : Field) (i j : ℕ) (hi : i < h) (hj : j < w) :
    f i j ∈ flatVals h w f := by
  unfold flatVals
  rw [List.mem_flatMap]
  exact ⟨i, List.mem_range.mpr hi, List.mem_map.mpr ⟨j, List.mem_range.mpr hj, rfl⟩⟩

theorem normalizeArr_id (m : Mask) (hb : ∀ i j, i < m.mh → j < m.mw → m.vals i j ≤ 1) :
    normalizeArr m = m.vals := by
  unfold normalizeArr
  have hmax : fieldMax m.mh m.mw m.vals ≤ 1 := by
    apply foldl_max_le 1 _ 0 (by norm_num)
    intro x hx
    unfold flatVals at hx
    rw [List.mem_flatMap] at hx
    obtain ⟨i, hi, hx2⟩ := hx
    rw [List.mem_map] at hx2
    obtain ⟨j, hj, rfl⟩ := hx2
    exact hb i j (List.mem_range.mp hi) (List.mem_range.mp hj)
  rw [if_neg (by push_neg; exact hmax)]

theorem normalizeArr_bounds (m : Mask) (i j : ℕ) (hi : i < m.mh) (hj : j < m.mw)
    (hnn : ∀ a b, a < m.mh → b < m.mw → 0 ≤ m.vals a b) :
    0 ≤ normalizeArr m i j ∧ normalizeArr m i j ≤ 1 := by
  unfold normalizeArr
  have hle : m.vals i j ≤ fieldMax m.mh m.mw m.vals :=
    le_foldl_max_mem _ 0 _ (mem_flatVals m.mh m.mw m.vals i j hi hj)
  by_cases hgt : 1 < fieldMax m.mh m.mw m.vals
  · rw [if_pos hgt]
    have hpos : 0 < fieldMax m.mh m.mw m.vals := lt_trans one_pos hgt
    constructor
    · exact div_nonneg (hnn i j hi hj) (le_of_lt hpos)
    · exact (div_le_one hpos).mpr hle
  · rw [if_neg hgt]
    push_neg at hgt
    exact ⟨hnn i j hi hj, le_trans hle hgt⟩

theorem combineField_apply (masks : List Mask) (i j : ℕ)
    (hnorm : ∀ m ∈ masks, normalizeArr m i j = m.vals i j)
    (hub : ∀ m ∈ masks, m.vals i j ≤ 1) :
    combineField masks i j =
      min (if (masks.filter (fun m => !m.inverted)).isEmpty then 1
           else ((masks.filter (fun m => !m.inverted)).map (fun m => m.vals i j)).foldl max 0)
          (((masks.filter (fun m => m.inverted)).map (fun m => 1 - m.vals i j)).foldl min 1) := by
  unfold combineField
  have houter := foldl_lift2_apply min (fun m i j => 1 - normalizeArr m i j)
    (masks.filter (fun m => m.inverted))
  have hinner := foldl_lift2_apply max (fun m i j => normalizeArr m i j)
    (masks.filter (fun m => !m.inverted))
  simp only [houter, hinner, ite_apply]
  have hmapout : (masks.filter (fun m => m.inverted)).map (fun m => 1 - normalizeArr m i j) =
      (masks.filter (fun m => m.inverted)).map (fun m => 1 - m.vals i j) := by
    apply List.map_congr_left
    intro m hm
    rw [hnorm m (List.mem_of_mem_filter hm)]
  have hmapin : (masks.filter (fun m => !m.inverted)).map (fun m => normalizeArr m i j) =
      (masks.filter (fun m => !m.inverted)).map (fun m => m.vals i j) := by
    apply List.map_congr_left
    intro m hm
    rw [hnorm m (List.mem_of_mem_filter hm)]
  have hfoldout : ∀ (a : ℚ),
      (masks.filter (fun m => m.inverted)).foldl (fun acc m => min acc (1 - normalizeArr m i j)) a =
        ((masks.filter (fun m => m.inverted)).map (fun m => 1 - m.vals i j)).foldl min a := by
    intro a
    rw [← hmapout, List.foldl_map]
  have hfoldin :
      (masks.filter (fun m => !m.inverted)).foldl (fun acc m => max acc (normalizeArr m i j)) 0 =
        ((masks.filter (fun m => !m.inverted)).map (fun m => m.vals i j)).foldl max 0 := by
    rw [← hmapin, List.foldl_map]
  have hA : (if (masks.filter (fun m => !m.inverted)).isEmpty then (1 : ℚ)
      else (masks.filter (fun m => !m.inverted)).foldl (fun acc m => max acc (normalizeArr m i j)) 0) =
      (if (masks.filter (fun m => !m.inverted)).isEmpty then 1
      else ((masks.filter (fun m => !m.inverted)).map (fun m => m.vals i j)).foldl max 0) := by
    by_cases he : (masks.filter (fun m => !m.inverted)).isEmpty
    · rw [if_pos he, if_pos he]
    · rw [if_neg he, if_neg he, hfoldin]
  rw [hfoldout, hA]
  have hAle : (if (masks.filter (fun m => !m.inverted)).isEmpty then (1 : ℚ)
      else ((masks.filter (fun m => !m.inverted)).map (fun m => m.vals i j)).foldl max 0) ≤ 1 := by
    by_cases he : (masks.filter (fun m => !m.inverted)).isEmpty
    · rw [if_pos he]
    · rw [if_neg he]
      apply foldl_max_le 1 _ 0 (by norm_num)
      intro x hx
      rw [List.mem_map] at hx
      obtain ⟨m, hm, rfl⟩ := hx
      exact hub m (List.mem_of_mem_filter hm)
  rw [← foldl_min_min, min_eq_left hAle]

/-- Claim C6: `combine_masks` on the empty list returns `None`, and on a
non-empty list of same-shape masks with weights in `[0,1]` the combined field
is pointwise `min` of (a) the max of the non-inverted masks (all-ones when
there are none) and (b) the pointwise min over inverted masks of `1 - weight`;
consequently a pixel fully inside any inverted mask gets weight `0`. -/
theorem claim6 :
    combine_masks ([] : List Mask) = none ∧
    ∀ (masks : List Mask) (m0 : Mask), masks.head? = some m0 →
      (∀ m ∈ masks, m.mh = m0.mh ∧ m.mw = m0.mw) →
      (∀ m ∈ masks, ∀ i j, i < m0.mh → j < m0.mw → 0 ≤ m.vals i j ∧ m.vals i j ≤ 1) →
      ∃ F, combine_masks masks = some F ∧
        (∀ i j, i < m0.mh → j < m0.mw →
          F.vals i j =
            min (if (masks.filter (fun m => !m.inverted)).isEmpty then 1
                 else ((masks.filter (fun m => !m.inverted)).map (fun m => m.vals i j)).foldl max 0)
                (((masks.filter (fun m => m.inverted)).map (fun m => 1 - m.vals i j)).foldl min 1)) ∧
        (∀ i j, i < m0.mh → j < m0.mw → ∀ m ∈ masks, m.inverted = true → m.vals i j = 1 →
          F.vals i j = 0) := by
  constructor
  · rfl
  · intro masks m0 h0 hsh hb
    cases masks with
    | nil => cases h0
    | cons a rest =>
      have ha0 : a = m0 := by
        simpa using h0
      subst ha0
      refine ⟨_, rfl, ?_, ?_⟩
      · intro i j hi hj
        show combineField (a :: rest) i j = _
        apply combineField_apply
        · intro m hm
          rw [normalizeArr_id m]
          intro x y hx hy
          exact (hb m hm x y (by rw [← (hsh m hm).1]; exact hx)
            (by rw [← (hsh m hm).2]; exact hy)).2
        · intro m hm
          exact (hb m hm i j hi hj).2
      · intro i j hi hj m hm hinv hone
        have hnorm : ∀ x ∈ (a :: rest), normalizeArr x i j = x.vals i j := by
          intro x hx
          rw [normalizeArr_id x]
          intro u v hu hv
          exact (hb x hx u v (by rw [← (hsh x hx).1]; exact hu)
            (by rw [← (hsh x hx).2]; exact hv)).2
        have hkey : combineField (a :: rest) i j =
            min (if ((a :: rest).filter (fun m => !m.inverted)).isEmpty then 1
                 else (((a :: rest).filter (fun m => !m.inverted)).map (fun m => m.vals i j)).foldl max 0)
                ((((a :: rest).filter (fun m => m.inverted)).map (fun m => 1 - m.vals i j)).foldl min 1) := by
          apply combineField_apply _ _ _ hnorm
          intro x hx
          exact (hb x hx i j hi hj).2
        show combineField (a :: rest) i j = 0
        rw [hkey]
        have hmem : (1 - m.vals i j) ∈
            ((a :: rest).filter (fun m => m.inverted)).map (fun m => 1 - m.vals i j) := by
          rw [List.mem_map]
          exact ⟨m, List.mem_filter.mpr ⟨hm, by rw [hinv]⟩, rfl⟩
        have hBle : (((a :: rest).filter (fun m => m.inverted)).map (fun m => 1 - m.vals i j)).foldl min 1 ≤ 0 := by
          have := foldl_min_le_mem _ 1 _ hmem
          rw [hone] at this
          simpa using this
        have hBge : (0 : ℚ) ≤ (((a :: rest).filter (fun m => m.inverted)).map (fun m => 1 - m.vals i j)).foldl min 1 := by
          apply foldl_min_ge 0 _ 1 (by norm_num)
          intro x hx
          rw [List.mem_map] at hx
          obtain ⟨y, hy, rfl⟩ := hx
          have := (hb y (List.mem_of_mem_filter hy) i j hi hj).2
          linarith
        have hAge : (0 : ℚ) ≤ (if ((a :: rest).filter (fun m => !m.inverted)).isEmpty then 1
            else (((a :: rest).filter (fun m => !m.inverted)).map (fun m => m.vals i j)).foldl max 0) := by
          by_cases he : ((a :: rest).filter (fun m => !m.inverted)).isEmpty
          · rw [if_pos he]; norm_num
          · rw [if_neg he]
            exact le_foldl_max_seed _ 0
        have h1 : min (if ((a :: rest).filter (fun m => !m.inverted)).isEmpty then (1:ℚ)
            else (((a :: rest).filter (fun m => !m.inverted)).map (fun m => m.vals i j)).foldl max 0)
            ((((a :: rest).filter (fun m => m.inverted)).map (fun m => 1 - m.vals i j)).foldl min 1) ≤ 0 :=
          le_trans (min_le_right _ _) hBle
        have h2 : (0:ℚ) ≤ min (if ((a :: rest).filter (fun m => !m.inverted)).isEmpty then (1:ℚ)
            else (((a :: rest).filter (fun m => !m.inverted)).map (fun m => m.vals i j)).foldl max 0)
            ((((a :: rest).filter (fun m => m.inverted)).map (fun m => 1 - m.vals i j)).foldl min 1) :=
          le_min hAge hBge
        linarith

/-- Witness for `claim6` (second conjunct) at a concrete two-mask input:
an inside mask of constant weight 1/2 and an inverted mask of constant
weight 1 over a 1×1 shape. -/
theorem claim6_witness :
    ([mkSimpleMask "in" false 1 1 (fun _ _ => 1/2),
      mkSimpleMask "out" true 1 1 (fun _ _ => 1)].head? =
        some (mkSimpleMask "in" false 1 1 (fun _ _ => 1/2))) ∧
    (∃ F, combine_masks [mkSimpleMask "in" false 1 1 (fun _ _ => 1/2),
        mkSimpleMask "out" true 1 1 (fun _ _ => 1)] = some F ∧
      (∀ i j, i < (mkSimpleMask "in" false 1 1 (fun _ _ => 1/2)).mh →
        j < (mkSimpleMask "in" false 1 1 (fun _ _ => 1/2)).mw →
        F.vals i j =
          min (if (([mkSimpleMask "in" false 1 1 (fun _ _ => 1/2),
                mkSimpleMask "out" true 1 1 (fun _ _ => 1)]).filter (fun m => !m.inverted)).isEmpty then 1
               else ((([mkSimpleMask "in" false 1 1 (fun _ _ => 1/2),
                mkSimpleMask "out" true 1 1 (fun _ _ => 1)]).filter (fun m => !m.inverted)).map
                  (fun m => m.vals i j)).foldl max 0)
              (((([mkSimpleMask "in" false 1 1 (fun _ _ => 1/2),
                mkSimpleMask "out" true 1 1 (fun _ _ => 1)]).filter (fun m => m.inverted)).map
                  (fun m => 1 - m.vals i j)).foldl min 1)) ∧
      (∀ i j, i < (mkSimpleMask "in" false 1 1 (fun _ _ => 1/2)).mh →
        j < (mkSimpleMask "in" false 1 1 (fun _ _ => 1/2)).mw →
        ∀ m ∈ [mkSimpleMask "in" false 1 1 (fun _ _ => 1/2),
               mkSimpleMask "out" true 1 1 (fun _ _ => 1)],
          m.inverted = true → m.vals i j = 1 → F.vals i j = 0)) := by
  have hsh : ∀ m ∈ [mkSimpleMask "in" false 1 1 (fun _ _ => 1/2),
      mkSimpleMask "out" true 1 1 (fun _ _ => 1)],
      m.mh = (mkSimpleMask "in" false 1 1 (fun _ _ => 1/2)).mh ∧
      m.mw = (mkSimpleMask "in" false 1 1 (fun _ _ => 1/2)).mw := by
    intro m hm
    rcases List.mem_cons.mp hm with h | hm2
    · rw [h]; exact ⟨rfl, rfl⟩
    · rcases List.mem_cons.mp hm2 with h | hm3
      · rw [h]; exact ⟨rfl, rfl⟩
      · cases hm3
  have hb : ∀ m ∈ [mkSimpleMask "in" false 1 1 (fun _ _ => 1/2),
      mkSimpleMask "out" true 1 1 (fun _ _ => 1)],
      ∀ i j, i < (mkSimpleMask "in" false 1 1 (fun _ _ => 1/2)).mh →
        j < (mkSimpleMask "in" false 1 1 (fun _ _ => 1/2)).mw →
        0 ≤ m.vals i j ∧ m.vals i j ≤ 1 := by
    intro m hm i j _ _
    rcases List.mem_cons.mp hm with h | hm2
    · rw [h]; constructor <;> norm_num [mkSimpleMask]
    · rcases List.mem_cons.mp hm2 with h | hm3
      · rw [h]; constructor <;> norm_num [mkSimpleMask]
      · cases hm3
  exact ⟨rfl, claim6.2 _ _ rfl hsh hb⟩

theorem combineField_bounds (masks : List Mask) (i j : ℕ)
    (hnb : ∀ m ∈ masks, 0 ≤ normalizeArr m i j ∧ normalizeArr m i j ≤ 1) :
    0 ≤ combineField masks i j ∧ combineField masks i j ≤ 1 := by
  unfold combineField
  have houter := foldl_lift2_apply min (fun m i j => 1 - normalizeArr m i j)
    (masks.filter (fun m => m.inverted))
  have hinner := foldl_lift2_apply max (fun m i j => normalizeArr m i j)
    (masks.filter (fun m => !m.inverted))
  simp only [houter, hinner, ite_apply]
  have hA : (0 : ℚ) ≤ (if (masks.filter (fun m => !m.inverted)).isEmpty then (1:ℚ)
        else (masks.filter (fun m => !m.inverted)).foldl (fun acc m => max acc (normalizeArr m i j)) 0) ∧
      (if (masks.filter (fun m => !m.inverted)).isEmpty then (1:ℚ)
        else (masks.filter (fun m => !m.inverted)).foldl (fun acc m => max acc (normalizeArr m i j)) 0) ≤ 1 := by
    by_cases he : (masks.filter (fun m => !m.inverted)).isEmpty
    · rw [if_pos he]; norm_num
    · rw [if_neg he]
      have hmap : (masks.filter (fun m => !m.inverted)).foldl (fun acc m => max acc (normalizeArr m i j)) 0 =
          ((masks.filter (fun m => !m.inverted)).map (fun m => normalizeArr m i j)).foldl max 0 := by
        rw [List.foldl_map]
      rw [hmap]
      constructor
      · exact le_foldl_max_seed _ 0
      · apply foldl_max_le 1 _ 0 (by norm_num)
        intro x hx
        rw [List.mem_map] at hx
        obtain ⟨m, hm, rfl⟩ := hx
        exact (hnb m (List.mem_of_mem_filter hm)).2
  have hfold : ∀ a : ℚ,
      (masks.filter (fun m => m.inverted)).foldl (fun acc m => min acc (1 - normalizeArr m i j)) a =
        ((masks.filter (fun m => m.inverted)).map (fun m => 1 - normalizeArr m i j)).foldl min a := by
    intro a
    rw [List.foldl_map]
  rw [hfold]
  constructor
  · apply foldl_min_ge 0 _ _ hA.1
    intro x hx
    rw [List.mem_map] at hx
    obtain ⟨m, hm, rfl⟩ := hx
    have := (hnb m (List.mem_of_mem_filter hm)).2
    linarith
  · exact le_trans (foldl_min_le_seed _ _) hA.2

/-- Claim C10: on a non-empty list of same-shape masks with elementwise
non-negative weight fields, `combine_masks` returns a field with the first
mask's shape whose every in-shape entry lies in `[0, 1]` (un-normalized masks
are first divided by their maximum). -/
theorem claim10 (masks : List Mask) (m0 : Mask) (h0 : masks.head? = some m0)
    (hsh : ∀ m ∈ masks, m.mh = m0.mh ∧ m.mw = m0.mw)
    (hnn : ∀ m ∈ masks, ∀ i j, i < m0.mh → j < m0.mw → 0 ≤ m.vals i j) :
    ∃ F, combine_masks masks = some F ∧ F.fh = m0.mh ∧ F.fw = m0.mw ∧
      ∀ i j, i < m0.mh → j < m0.mw → 0 ≤ F.vals i j ∧ F.vals i j ≤ 1 := by
  cases masks with
  | nil => cases h0
  | cons a rest =>
    have ha0 : a = m0 := by simpa using h0
    subst ha0
    refine ⟨_, rfl, rfl, rfl, ?_⟩
    intro i j hi hj
    show 0 ≤ combineField (a :: rest) i j ∧ combineField (a :: rest) i j ≤ 1
    apply combineField_bounds
    intro m hm
    apply normalizeArr_bounds m i j
      (by rw [(hsh m hm).1]; exact hi) (by rw [(hsh m hm).2]; exact hj)
    intro u v hu hv
    exact hnn m hm u v (by rw [← (hsh m hm).1]; exact hu) (by rw [← (hsh m hm).2]; exact hv)

/-- Witness for `claim10` at a concrete input containing an un-normalized
(0..255-style) mask. -/
theorem claim10_witness :
    ([mkSimpleMask "big" false 1 1 (fun _ _ => 200)].head? =
      some (mkSimpleMask "big" false 1 1 (fun _ _ => 200))) ∧
    (∃ F, combine_masks [mkSimpleMask "big" false 1 1 (fun _ _ => 200)] = some F ∧
      F.fh = (mkSimpleMask "big" false 1 1 (fun _ _ => 200)).mh ∧
      F.fw = (mkSimpleMask "big" false 1 1 (fun _ _ => 200)).mw ∧
      ∀ i j, i < (mkSimpleMask "big" false 1 1 (fun _ _ => 200)).mh →
        j < (mkSimpleMask "big" false 1 1 (fun _ _ => 200)).mw →
        0 ≤ F.vals i j ∧ F.vals i j ≤ 1) := by
  have hsh : ∀ m ∈ [mkSimpleMask "big" false 1 1 (fun _ _ => 200)],
      m.mh = (mkSimpleMask "big" false 1 1 (fun _ _ => 200)).mh ∧
      m.mw = (mkSimpleMask "big" false 1 1 (fun _ _ => 200)).mw := by
    intro m hm
    rcases List.mem_cons.mp hm with h | hm2
    · rw [h]; exact ⟨rfl, rfl⟩
    · cases hm2
  have hnn : ∀ m ∈ [mkSimpleMask "big" false 1 1 (fun _ _ => 200)],
      ∀ i j, i < (mkSimpleMask "big" false 1 1 (fun _ _ => 200)).mh →
        j < (mkSimpleMask "big" false 1 1 (fun _ _ => 200)).mw → 0 ≤ m.vals i j := by
    intro m hm i j _ _
    rcases List.mem_cons.mp hm with h | hm2
    · rw [h]; norm_num [mkSimpleMask]
    · cases hm2
  exact ⟨rfl, claim10 _ _ rfl hsh hnn⟩

/-! ### Tile processor (`src/enhance/op/simple_tile_processor.py`, class `TileProcessor`)

The model (`self.model`) and the bicubic upscaler (`F.interpolate(..., mode="bicubic")`)
are opaque library capabilities, passed as function parameters `model` / `upFn`.
2-D `F.pad` with reflection is separable, so it is embedded as per-axis index maps. -/

/-- Content index selected by torch reflection padding with `pl` entries added
on the left of a run of `n` content entries: `padded[i] = content[reflIdx pl n i]`
(for indices beyond `pl + n` this is the right-hand reflection). -/
def reflIdx (pl n i : ℕ) : ℕ :=
  if i < pl then pl - i
  else if i < pl + n then i - pl
  else n - 2 - (i - pl - n)

/-- Image pad amount per axis: `(tileSize - (d % tileSize)) % tileSize`
(`TileProcessor.preprocess_img`). -/
def imgPadAmt (t d : ℕ) : ℕ := (t - d % t) % t

/-- Tile slice start per axis: `max(k*actualTileSize - tilePad, 0)`
(`TileProcessor.preprocess_tile`; `ℕ` subtraction saturates at 0). -/
def tStart (ats p k : ℕ) : ℕ := k * ats - p

/-- Length of the extracted (clamped) tile slice per axis:
`min((k+1)*actualTileSize + tilePad, N) - start`. -/
def tLen (N ats p k : ℕ) : ℕ := min ((k + 1) * ats + p) N - tStart ats p k

/-- Reflection padding added on the low side of a tile axis: only when the
slice start is 0 (top/left edge), `tileSize - len`. -/
def tPadL (t start len : ℕ) : ℕ :=
  if len < t then (if start = 0 then t - len else 0) else 0

/-- Reflection padding added on the high side of a tile axis: `tileSize - len`,
clamped to `len - 1` when it would exceed `len` (the source's
`if tile_padY2 > tile.shape: tile_padY2 = tile.shape - 1`). -/
def tPadR (t start len : ℕ) : ℕ :=
  if len < t then
    (if start = 0 then 0 else (if len < t - len then len - 1 else t - len))
  else 0

/-- Value of the fully padded `tileSize × tileSize` tile for grid cell
`(ky, kx)`: reflection padding within `padL + len + padR`, then constant-zero
padding on the right/bottom (the source's fallback second `F.pad`). -/
def tileVal (t p H W : ℕ) (P : Field) (ky kx : ℕ) : Field := fun i j =>
  let ats := t - 2 * p
  let sy := tStart ats p ky
  let ly := tLen H ats p ky
  let sx := tStart ats p kx
  let lx := tLen W ats p kx
  if i < tPadL t sy ly + ly + tPadR t sy ly ∧ j < tPadL t sx lx + lx + tPadR t sx lx then
    P (sy + reflIdx (tPadL t sy ly) ly i) (sx + reflIdx (tPadL t sx lx) lx j)
  else 0

/-- Total mask weight over a tile's unpadded output region
(`mask_tensor[:, :, y1:y2, x1:x2].sum()`, slices clamped at the array bound). -/
def maskTileSum (ats H W : ℕ) (m : Field) (ky kx : ℕ) : ℚ :=
  ∑ i ∈ Finset.Ico (ky * ats) (min ((ky + 1) * ats) H),
    ∑ j ∈ Finset.Ico (kx * ats) (min ((kx + 1) * ats) W), m i j

/-- Embedding of `TileProcessor._tile_has_mask_pixels`: `True` without a mask,
otherwise `mask_region.sum() > 0`. -/
def tileHasMaskPixels (ats H W : ℕ) (mask : Option Field) (ky kx : ℕ) : Bool :=
  match mask with
  | none => true
  | some m => decide (0 < maskTileSum ats H W m ky kx)

/-- One iteration of the `process_tiles` loop body: either run the model on the
padded tile, strip `tilePad*scale`, and write the trimmed region into the
canvas, or (mask present, zero weight) splice the upscaled original pixels. -/
def writeTile (t p s : ℕ) (model : Field → Field) (H W : ℕ) (P : Field)
    (mask : Option Field) (origScaled : Field) (ky kx : ℕ) (c : Field) : Field :=
  fun i j =>
    let ats := t - 2 * p
    let ss := ats * s
    let py := ky * ss
    let px := kx * ss
    if py ≤ i ∧ i < py + min ss (H * s - py) ∧ px ≤ j ∧ j < px + min ss (W * s - px) then
      if tileHasMaskPixels ats H W mask ky kx then
        model (tileVal t p H W P ky kx) (p * s + (i - py)) (p * s + (j - px))
      else
        match mask with
        | some _ => origScaled i j
        | none => c i j
    else c i j

/-- Raster-order (row-major) list of grid cells. -/
def tileList (yt xt : ℕ) : List (ℕ × ℕ) :=
  (List.range yt).flatMap (fun y => (List.range xt).map (fun x => (y, x)))

/-- Cancellation poll: `observer is not None and observer.shouldInterrupt()`,
as a function of the number of loop iterations already completed. -/
def obsCheck (observer : Option (ℕ → Bool)) (k : ℕ) : Bool :=
  match observer with
  | none => false
  | some f => f k

/-- The `process_tiles` double loop: poll cancellation before each tile (abort
with `None`), otherwise write the tile and continue. -/
def processTilesGo (t p s : ℕ) (model : Field → Field) (H W : ℕ) (P : Field)
    (mask : Option Field) (origScaled : Field) (observer : Option (ℕ → Bool)) :
    List (ℕ × ℕ) → ℕ → Field → Option Field
  | [], _, c => some c
  | yx :: rest, k, c =>
    if obsCheck observer k then none
    else processTilesGo t p s model H W P mask origScaled observer rest (k + 1)
      (writeTile t p s model H W P mask origScaled yx.1 yx.2 c)

/-- Ceiling division, `math.ceil(a / b)` for positive `b`. -/
def ceilDiv (a b : ℕ) : ℕ := (a + b - 1) / b

/-- Nearest-neighbour upscaling of the mask by integer factor `s`
(`F.interpolate(mask, scale_factor=s, mode="nearest")`). -/
def maskScaledF (s : ℕ) (m : Field) : Field := fun i j => m (i / s) (j / s)

/-- Embedding of `TileProcessor.process_tiles` on the padded image `P` (shape
`H × W`) and optional padded mask: run the tile loop from a zero canvas, then,
when a mask is present, blend `mask*canvas + (1-mask)*originalUpscaled`. -/
def processTiles (t p s : ℕ) (model upFn : Field → Field) (observer : Option (ℕ → Bool))
    (H W : ℕ) (P : Field) (mask : Option Field) : Option Field :=
  let origScaled := upFn P
  match processTilesGo t p s model H W P mask origScaled observer
      (tileList (ceilDiv H (t - 2 * p)) (ceilDiv W (t - 2 * p))) 0 (fun _ _ => 0) with
  | none => none
  | some canvas =>
    match mask with
    | none => some canvas
    | some m =>
      some (fun i j =>
        maskScaledF s m i j * canvas i j + (1 - maskScaledF s m i j) * origScaled i j)

/-- Integer-sample image with explicit bit depth (`deep = true` for uint16). -/
structure NImage where
  h : ℕ
  w : ℕ
  deep : Bool
  pix : ℕ → ℕ → ℕ

/-- Normalization divisor: 65535 for 16-bit images, 255 for 8-bit. -/
def maxValOf (deep : Bool) : ℚ := if deep then 65535 else 255

/-- Embedding of `tensor2img` per sample: multiply by the native maximum, clip
to `[0, max]`, truncate to an integer. -/
def toSample (deep : Bool) (q : ℚ) : ℕ :=
  (min (max (q * maxValOf deep) 0) (maxValOf deep)).floor.toNat

/-- Embedding of `TileProcessor.process_image`: normalize to `[0,1]`
(`img2tensor`), reflection-pad the image and constant-zero-pad the mask to a
multiple of `tileSize` (`preprocess_img`), run `process_tiles`, crop the pad
(`postprocess_result`), and requantize (`tensor2img`). -/
def processImage (t p s : ℕ) (model upFn : Field → Field) (observer : Option (ℕ → Bool))
    (mask : Option Field) (img : NImage) : Option NImage :=
  let tens : Field := fun i j => (img.pix i j : ℚ) / maxValOf img.deep
  let yPad := imgPadAmt t img.h
  let xPad := imgPadAmt t img.w
  let y1 := yPad / 2
  let x1 := xPad / 2
  let H := img.h + yPad
  let W := img.w + xPad
  let P : Field := fun i j => tens (reflIdx y1 img.h i) (reflIdx x1 img.w j)
  let pm : Option Field := mask.map (fun m => fun i j =>
    if y1 ≤ i ∧ i < y1 + img.h ∧ x1 ≤ j ∧ j < x1 + img.w then m (i - y1) (j - x1) else 0)
  match processTiles t p s model upFn observer H W P pm with
  | none => none
  | some out =>
    some { h := H * s - (yPad * s - y1 * s) - y1 * s
           w := W * s - (xPad * s - x1 * s) - x1 * s
           deep := img.deep
           pix := fun i j => toSample img.deep (out (y1 * s + i) (x1 * s + j)) }

/-- Number of grid cells of `process_tiles` for a given image. -/
def totalTiles (t p : ℕ) (img : NImage) : ℕ :=
  ceilDiv (img.h + imgPadAmt t img.h) (t - 2 * p) *
    ceilDiv (img.w + imgPadAmt t img.w) (t - 2 * p)

theorem processTilesGo_no_observer (t p s : ℕ) (model : Field → Field) (H W : ℕ) (P : Field)
    (mask : Option Field) (origScaled : Field) :
    ∀ (l : List (ℕ × ℕ)) (k : ℕ) (c : Field),
      processTilesGo t p s model H W P mask origScaled none l k c =
        some (l.foldl (fun c yx => writeTile t p s model H W P mask origScaled yx.1 yx.2 c) c) := by
  intro l
  induction l with
  | nil => intro k c; rfl
  | cons yx rest ih =>
    intro k c
    show processTilesGo t p s model H W P mask origScaled none (yx :: rest) k c = _
    rw [processTilesGo]
    simp only [obsCheck, Bool.false_eq_true, if_false, List.foldl_cons]
    exact ih (k + 1) _

/-- Claim C7: the per-axis pad amounts are `(t - d % t) % t`, the final crop
removes exactly `pad × scale` rows/columns in total, and the output dimensions
are exactly `(h × s, w × s)`. -/
theorem claim7 (t p s : ℕ) (model upFn : Field → Field) (img : NImage)
    (ht : 0 < t) (hp : 2 * p < t) :
    imgPadAmt t img.h = (t - img.h % t) % t ∧
    imgPadAmt t img.w = (t - img.w % t) % t ∧
    (imgPadAmt t img.h / 2) * s + (imgPadAmt t img.h * s - (imgPadAmt t img.h / 2) * s) =
      imgPadAmt t img.h * s ∧
    (imgPadAmt t img.w / 2) * s + (imgPadAmt t img.w * s - (imgPadAmt t img.w / 2) * s) =
      imgPadAmt t img.w * s ∧
    ∃ out, processImage t p s model upFn none none img = some out ∧
      out.h = img.h * s ∧ out.w = img.w * s := by
  have hcropY : (imgPadAmt t img.h / 2) * s ≤ imgPadAmt t img.h * s :=
    Nat.mul_le_mul_right s (Nat.div_le_self _ 2)
  have hcropX : (imgPadAmt t img.w / 2) * s ≤ imgPadAmt t img.w * s :=
    Nat.mul_le_mul_right s (Nat.div_le_self _ 2)
  refine ⟨rfl, rfl, by omega, by omega, ?_⟩
  unfold processImage
  simp only [Option.map_none]
  rw [processTiles, processTilesGo_no_observer]
  refine ⟨_, rfl, ?_, ?_⟩
  · show (img.h + imgPadAmt t img.h) * s -
        (imgPadAmt t img.h * s - imgPadAmt t img.h / 2 * s) - imgPadAmt t img.h / 2 * s =
        img.h * s
    have hHs : (img.h + imgPadAmt t img.h) * s = img.h * s + imgPadAmt t img.h * s := by ring
    omega
  · show (img.w + imgPadAmt t img.w) * s -
        (imgPadAmt t img.w * s - imgPadAmt t img.w / 2 * s) - imgPadAmt t img.w / 2 * s =
        img.w * s
    have hWs : (img.w + imgPadAmt t img.w) * s = img.w * s + imgPadAmt t img.w * s := by ring
    omega

/-- Witness for `claim7` at a concrete 3×5 8-bit image, `tileSize 4`,
`tilePad 1`, scale 2. -/
theorem claim7_witness :
    (0 < 4 ∧ 2 * 1 < 4) ∧
    (imgPadAmt 4 (3 : ℕ) = (4 - 3 % 4) % 4 ∧
     imgPadAmt 4 (5 : ℕ) = (4 - 5 % 4) % 4 ∧
     (imgPadAmt 4 (3 : ℕ) / 2) * 2 + (imgPadAmt 4 (3 : ℕ) * 2 - (imgPadAmt 4 (3 : ℕ) / 2) * 2) =
       imgPadAmt 4 (3 : ℕ) * 2 ∧
     (imgPadAmt 4 (5 : ℕ) / 2) * 2 + (imgPadAmt 4 (5 : ℕ) * 2 - (imgPadAmt 4 (5 : ℕ) / 2) * 2) =
       imgPadAmt 4 (5 : ℕ) * 2 ∧
     ∃ out, processImage 4 1 2 (fun f => f) (fun f => f) none none
         ⟨3, 5, false, fun _ _ => 7⟩ = some out ∧
       out.h = 3 * 2 ∧ out.w = 5 * 2) :=
  ⟨⟨by norm_num, by norm_num⟩,
    claim7 4 1 2 (fun f => f) (fun f => f) ⟨3, 5, false, fun _ _ => 7⟩
      (by norm_num) (by norm_num)⟩

theorem rat_floor_eq_int_floor (q : ℚ) : q.floor = Int.floor q := by
  rw [Rat.floor_def', Rat.floor_def]

theorem toSample_round (deep : Bool) (v : ℕ) (hv : (v : ℚ) ≤ maxValOf deep) :
    toSample deep ((v : ℚ) / maxValOf deep) = v := by
  have hmx : (0 : ℚ) < maxValOf deep := by
    unfold maxValOf
    split <;> norm_num
  unfold toSample
  have h1 : (v : ℚ) / maxValOf deep * maxValOf deep = v := by
    field_simp
  rw [h1]
  have h2 : (0 : ℚ) ≤ (v : ℚ) := by positivity
  rw [max_eq_left h2, min_eq_left hv, rat_floor_eq_int_floor, Int.floor_natCast]
  rfl

theorem lt_div_succ_mul (i ss : ℕ) (hss : 0 < ss) : i < (i / ss + 1) * ss := by
  have h1 := Nat.div_add_mod i ss
  have h2 := Nat.mod_lt i hss
  calc i = ss * (i / ss) + i % ss := h1.symm
    _ < ss * (i / ss) + ss := by omega
    _ = (i / ss + 1) * ss := by ring

theorem mem_tileList (yt xt a b : ℕ) : (a, b) ∈ tileList yt xt ↔ a < yt ∧ b < xt := by
  unfold tileList
  simp only [List.mem_flatMap, List.mem_map, List.mem_range, Prod.mk.injEq]
  constructor
  · rintro ⟨y, hy, x, hx, rfl, rfl⟩
    exact ⟨hy, hx⟩
  · rintro ⟨ha, hb⟩
    exact ⟨a, ha, b, hb, rfl, rfl⟩

theorem le_ceilDiv_mul (H ats : ℕ) (h : 0 < ats) : H ≤ ceilDiv H ats * ats := by
  unfold ceilDiv
  rw [Nat.mul_comm]
  have h1 := Nat.div_add_mod (H + ats - 1) ats
  have h2 := Nat.mod_lt (H + ats - 1) h
  set q := (H + ats - 1) / ats with hq
  set r := (H + ats - 1) % ats with hr
  set m := ats * q with hm
  omega

/-- Canvas value contributed by grid cell `(ky, kx)` inside its write region:
model output for a live tile, spliced upscaled original for a skipped one. -/
def tilePointVal (t p s : ℕ) (model : Field → Field) (H W : ℕ) (P : Field)
    (mask : Option Field) (origScaled : Field) (ky kx : ℕ) : ℕ → ℕ → ℚ := fun i j =>
  if tileHasMaskPixels (t - 2 * p) H W mask ky kx then
    model (tileVal t p H W P ky kx) (p * s + (i - ky * ((t - 2 * p) * s)))
      (p * s + (j - kx * ((t - 2 * p) * s)))
  else origScaled i j

theorem writeTile_eq_region (t p s : ℕ) (model : Field → Field) (H W : ℕ) (P : Field)
    (mask : Option Field) (origScaled : Field) (ky kx : ℕ) (c : Field) (i j : ℕ) :
    writeTile t p s model H W P mask origScaled ky kx c i j =
      if ky * ((t - 2 * p) * s) ≤ i ∧
         i < ky * ((t - 2 * p) * s) + min ((t - 2 * p) * s) (H * s - ky * ((t - 2 * p) * s)) ∧
         kx * ((t - 2 * p) * s) ≤ j ∧
         j < kx * ((t - 2 * p) * s) + min ((t - 2 * p) * s) (W * s - kx * ((t - 2 * p) * s)) then
        tilePointVal t p s model H W P mask origScaled ky kx i j
      else c i j := by
  cases mask with
  | none => rfl
  | some m => rfl

theorem foldl_region_writes (ss Hs Ws : ℕ) (hss : 0 < ss)
    (step : ℕ → ℕ → Field → Field) (v : ℕ → ℕ → ℕ → ℕ → ℚ)
    (hstep : ∀ ky kx c i j, step ky kx c i j =
      if ky * ss ≤ i ∧ i < ky * ss + min ss (Hs - ky * ss) ∧
         kx * ss ≤ j ∧ j < kx * ss + min ss (Ws - kx * ss) then v ky kx i j else c i j) :
    ∀ (l : List (ℕ × ℕ)) (c : Field) (i j : ℕ),
      (l.foldl (fun c yx => step yx.1 yx.2 c) c) i j =
        if (i / ss, j / ss) ∈ l ∧ i < Hs ∧ j < Ws then v (i / ss) (j / ss) i j else c i j := by
  intro l
  induction l with
  | nil =>
    intro c i j
    simp
  | cons yx rest ih =>
    intro c i j
    obtain ⟨ky, kx⟩ := yx
    rw [List.foldl_cons, ih]
    by_cases hrest : (i / ss, j / ss) ∈ rest ∧ i < Hs ∧ j < Ws
    · rw [if_pos hrest, if_pos ⟨List.mem_cons_of_mem _ hrest.1, hrest.2⟩]
    · rw [if_neg hrest, hstep]
      by_cases hreg : ky * ss ≤ i ∧ i < ky * ss + min ss (Hs - ky * ss) ∧
          kx * ss ≤ j ∧ j < kx * ss + min ss (Ws - kx * ss)
      · obtain ⟨h1, h2, h3, h4⟩ := hreg
        have hminH : min ss (Hs - ky * ss) ≤ ss := min_le_left _ _
        have hminH2 : min ss (Hs - ky * ss) ≤ Hs - ky * ss := min_le_right _ _
        have hminW : min ss (Ws - kx * ss) ≤ ss := min_le_left _ _
        have hminW2 : min ss (Ws - kx * ss) ≤ Ws - kx * ss := min_le_right _ _
        have hky_le : ky * ss ≤ Hs := by
          by_contra hcon
          push_neg at hcon
          have h0 : Hs - ky * ss = 0 := by omega
          rw [h0] at hminH2
          omega
        have hkx_le : kx * ss ≤ Ws := by
          by_contra hcon
          push_neg at hcon
          have h0 : Ws - kx * ss = 0 := by omega
          rw [h0] at hminW2
          omega
        have hiHs : i < Hs := by omega
        have hjWs : j < Ws := by omega
        have hdivi : i / ss = ky := by
          apply Nat.div_eq_of_lt_le h1
          have hsucc : (ky + 1) * ss = ky * ss + ss := by ring
          omega
        have hdivj : j / ss = kx := by
          apply Nat.div_eq_of_lt_le h3
          have hsucc : (kx + 1) * ss = kx * ss + ss := by ring
          omega
        rw [if_pos ⟨h1, h2, h3, h4⟩, hdivi, hdivj,
          if_pos ⟨List.mem_cons_self _ _, hiHs, hjWs⟩]
      · rw [if_neg hreg]
        have hcond : ¬ ((i / ss, j / ss) ∈ (ky, kx) :: rest ∧ i < Hs ∧ j < Ws) := by
          rintro ⟨hmem, hiHs, hjWs⟩
          rcases List.mem_cons.mp hmem with hhead | htail
          · have hky : i / ss = ky := congrArg Prod.fst hhead
            have hkx : j / ss = kx := congrArg Prod.snd hhead
            apply hreg
            have hi1 : ky * ss ≤ i := by
              rw [← hky]
              exact Nat.div_mul_le_self i ss
            have hj1 : kx * ss ≤ j := by
              rw [← hkx]
              exact Nat.div_mul_le_self j ss
            have hi2 : i < ky * ss + ss := by
              have := lt_div_succ_mul i ss hss
              rw [hky] at this
              have hsucc : (ky + 1) * ss = ky * ss + ss := by ring
              omega
            have hj2 : j < kx * ss + ss := by
              have := lt_div_succ_mul j ss hss
              rw [hkx] at this
              have hsucc : (kx + 1) * ss = kx * ss + ss := by ring
              omega
            refine ⟨hi1, ?_, hj1, ?_⟩
            · have : i < ky * ss + min ss (Hs - ky * ss) ↔
                  i < min (ky * ss + ss) (ky * ss + (Hs - ky * ss)) := by
                rw [min_add_add_left]
              rw [this, lt_min_iff]
              exact ⟨hi2, by omega⟩
            · have : j < kx * ss + min ss (Ws - kx * ss) ↔
                  j < min (kx * ss + ss) (kx * ss + (Ws - kx * ss)) := by
                rw [min_add_add_left]
              rw [this, lt_min_iff]
              exact ⟨hj2, by omega⟩
          · exact hrest ⟨htail, hiHs, hjWs⟩
        rw [if_neg hcond]

theorem reflIdx_zero (n i : ℕ) (hi : i < n) : reflIdx 0 n i = i := by
  unfold reflIdx
  rw [if_neg (by omega), if_pos (by omega)]
  omega

/-- Per-axis reading lemma for the identity reconstruction: for an axis of
length `n` divisible by `t` and in-range output position `k * ats + r`, the
padded tile read at offset `p + r` is in bounds and lands exactly on source
index `k * ats + r`. -/
theorem axis_read (ats p n k r t : ℕ) (hts : t = ats + 2 * p) (hats : 0 < ats)
    (hn : 0 < n) (hmod : n % t = 0) (hr : r < ats) (hkr : k * ats + r < n) :
    (p + r < tPadL t (tStart ats p k) (tLen n ats p k) + tLen n ats p k +
        tPadR t (tStart ats p k) (tLen n ats p k)) ∧
    tStart ats p k + reflIdx (tPadL t (tStart ats p k) (tLen n ats p k))
        (tLen n ats p k) (p + r) = k * ats + r := by
  have ht0 : 0 < t := by omega
  have hnt : t ≤ n := Nat.le_of_dvd hn (Nat.dvd_of_mod_eq_zero hmod)
  set M := k * ats with hM
  have hsy : tStart ats p k = M - p := rfl
  have hlen : tLen n ats p k = min (M + ats + p) n - (M - p) := by
    unfold tLen tStart
    have hsucc : (k + 1) * ats + p = M + ats + p := by rw [hM]; ring
    rw [hsucc]
  by_cases hMp : M ≤ p
  · -- slice start clamped at 0
    have hsy0 : tStart ats p k = 0 := by rw [hsy]; omega
    have ha2 : M + ats + p ≤ n := by omega
    have hL : tLen n ats p k = M + ats + p := by
      rw [hlen, min_eq_left ha2]
      omega
    by_cases hMp2 : M = p
    · -- full-length slice, no tile padding
      have hLt : tLen n ats p k = t := by omega
      have hpl : tPadL t (tStart ats p k) (tLen n ats p k) = 0 := by
        unfold tPadL
        rw [if_neg (by omega)]
      have hpr : tPadR t (tStart ats p k) (tLen n ats p k) = 0 := by
        unfold tPadR
        rw [if_neg (by omega)]
      refine ⟨by omega, ?_⟩
      rw [hpl, hLt, hsy0]
      unfold reflIdx
      rw [if_neg (by omega), if_pos (by omega)]
      omega
    · -- short slice at the left edge: reflection padding on the left
      have hLlt : tLen n ats p k < t := by omega
      have hpl : tPadL t (tStart ats p k) (tLen n ats p k) = t - (M + ats + p) := by
        unfold tPadL
        rw [if_pos (by omega), if_pos hsy0, hL]
      have hpr : tPadR t (tStart ats p k) (tLen n ats p k) = 0 := by
        unfold tPadR
        rw [if_pos (by omega), if_pos hsy0]
      refine ⟨by omega, ?_⟩
      rw [hpl, hL, hsy0]
      unfold reflIdx
      rw [if_neg (by omega), if_pos (by omega)]
      omega
  · -- interior or right-edge tile: start not clamped
    have hsyM : tStart ats p k = M - p := hsy
    have hsy_pos : 0 < tStart ats p k := by rw [hsyM]; omega
    by_cases ha2 : M + ats + p ≤ n
    · -- full-length slice, no tile padding
      have hLt : tLen n ats p k = t := by
        rw [hlen, min_eq_left ha2]
        omega
      have hpl : tPadL t (tStart ats p k) (tLen n ats p k) = 0 := by
        unfold tPadL
        rw [if_neg (by omega)]
      have hpr : tPadR t (tStart ats p k) (tLen n ats p k) = 0 := by
        unfold tPadR
        rw [if_neg (by omega)]
      refine ⟨by omega, ?_⟩
      rw [hpl, hLt, hsyM]
      unfold reflIdx
      rw [if_neg (by omega), if_pos (by omega)]
      omega
    · -- right-clamped slice: read stays inside the content
      have hL : tLen n ats p k = n - (M - p) := by
        rw [hlen, min_eq_right (by omega)]
      have hread : p + r < tLen n ats p k := by omega
      have hpl : tPadL t (tStart ats p k) (tLen n ats p k) = 0 := by
        unfold tPadL
        by_cases hc : tLen n ats p k < t
        · rw [if_pos hc, if_neg (by omega)]
        · rw [if_neg hc]
      refine ⟨by omega, ?_⟩
      rw [hpl, hsyM]
      unfold reflIdx
      rw [if_neg (by omega), if_pos (by omega)]
      omega

/-- Claim C3: for an image whose dimensions are exact multiples of `tileSize`,
any `tilePadding < tileSize/2`, and the identity model at scale 1,
`process_image` returns the original image unchanged (exactly, in exact
rational arithmetic). -/
theorem claim3 (t p : ℕ) (upFn : Field → Field) (img : NImage)
    (ht : 0 < t) (hp : 2 * p < t) (hh : img.h % t = 0) (hw : img.w % t = 0)
    (hh0 : 0 < img.h) (hw0 : 0 < img.w)
    (hbound : ∀ i j, i < img.h → j < img.w → (img.pix i j : ℚ) ≤ maxValOf img.deep) :
    ∃ out, processImage t p 1 (fun tile => tile) upFn none none img = some out ∧
      out.h = img.h ∧ out.w = img.w ∧
      ∀ i j, i < img.h → j < img.w → out.pix i j = img.pix i j := by
  have hats : 0 < t - 2 * p := by omega
  have hyPad : imgPadAmt t img.h = 0 := by
    unfold imgPadAmt
    rw [hh]
    simp
  have hxPad : imgPadAmt t img.w = 0 := by
    unfold imgPadAmt
    rw [hw]
    simp
  set P : Field := fun i j =>
    ((img.pix (reflIdx 0 img.h i) (reflIdx 0 img.w j) : ℚ)) / maxValOf img.deep with hP
  set C : Field :=
    (tileList (ceilDiv img.h (t - 2 * p)) (ceilDiv img.w (t - 2 * p))).foldl
      (fun c yx => writeTile t p 1 (fun tile => tile) img.h img.w P none (upFn P) yx.1 yx.2 c)
      (fun _ _ => 0) with hC
  have hpt : processTiles t p 1 (fun tile => tile) upFn none img.h img.w P none = some C := by
    rw [processTiles, processTilesGo_no_observer]
  have hmain : processImage t p 1 (fun tile => tile) upFn none none img =
      some { h := img.h * 1 - (imgPadAmt t img.h * 1 - imgPadAmt t img.h / 2 * 1) -
                imgPadAmt t img.h / 2 * 1
             w := img.w * 1 - (imgPadAmt t img.w * 1 - imgPadAmt t img.w / 2 * 1) -
                imgPadAmt t img.w / 2 * 1
             deep := img.deep
             pix := fun i j => toSample img.deep
               (C (imgPadAmt t img.h / 2 * 1 + i) (imgPadAmt t img.w / 2 * 1 + j)) } := by
    unfold processImage
    simp only [hyPad, hxPad, Nat.add_zero, Option.map_none, Option.map_none', Nat.zero_div]
    rw [← hP, hpt]
  rw [hmain]
  refine ⟨_, rfl, by simp [hyPad], by simp [hxPad], ?_⟩
  intro i j hi hj
  simp only [hyPad, hxPad]
  have hcanvas : C (0 / 2 * 1 + i) (0 / 2 * 1 + j) = P i j := by
    have hzero : (0 : ℕ) / 2 * 1 + i = i := by omega
    have hzero2 : (0 : ℕ) / 2 * 1 + j = j := by omega
    rw [hzero, hzero2, hC]
    have hss : 0 < (t - 2 * p) * 1 := by omega
    rw [foldl_region_writes ((t - 2 * p) * 1) (img.h * 1) (img.w * 1) hss _
      (tilePointVal t p 1 (fun tile => tile) img.h img.w P none (upFn P))
      (fun ky kx c i j => writeTile_eq_region t p 1 (fun tile => tile) img.h img.w P none
        (upFn P) ky kx c i j)]
    have hi1 : i < img.h * 1 := by omega
    have hj1 : j < img.w * 1 := by omega
    have hyt : i / ((t - 2 * p) * 1) < ceilDiv img.h (t - 2 * p) := by
      rw [Nat.div_lt_iff_lt_mul hss]
      calc i < img.h := hi
        _ ≤ ceilDiv img.h (t - 2 * p) * (t - 2 * p) := le_ceilDiv_mul _ _ hats
        _ = ceilDiv img.h (t - 2 * p) * ((t - 2 * p) * 1) := by ring
    have hxt : j / ((t - 2 * p) * 1) < ceilDiv img.w (t - 2 * p) := by
      rw [Nat.div_lt_iff_lt_mul hss]
      calc j < img.w := hj
        _ ≤ ceilDiv img.w (t - 2 * p) * (t - 2 * p) := le_ceilDiv_mul _ _ hats
        _ = ceilDiv img.w (t - 2 * p) * ((t - 2 * p) * 1) := by ring
    rw [if_pos ⟨(mem_tileList _ _ _ _).mpr ⟨hyt, hxt⟩, hi1, hj1⟩]
    -- reduce to the axis lemma
    unfold tilePointVal
    rw [if_pos (by rfl)]
    set ats := t - 2 * p with hatsdef
    have hmul1 : ats * 1 = ats := by ring
    set ky := i / (ats * 1) with hky
    set kx := j / (ats * 1) with hkx
    have hkyats : ky * ats ≤ i := by
      have := Nat.div_mul_le_self i (ats * 1)
      calc ky * ats = ky * (ats * 1) := by ring
        _ ≤ i := Nat.div_mul_le_self i (ats * 1)
    have hkyats2 : i < ky * ats + ats := by
      have h1 := lt_div_succ_mul i (ats * 1) (by omega)
      have h2 : (i / (ats * 1) + 1) * (ats * 1) = ky * ats + ats := by
        rw [← hky]; ring
      omega
    have hkxats : kx * ats ≤ j := by
      calc kx * ats = kx * (ats * 1) := by ring
        _ ≤ j := Nat.div_mul_le_self j (ats * 1)
    have hkxats2 : j < kx * ats + ats := by
      have h1 := lt_div_succ_mul j (ats * 1) (by omega)
      have h2 : (j / (ats * 1) + 1) * (ats * 1) = kx * ats + kx * 0 + ats := by
        rw [← hkx]; ring
      omega
    set ry := i - ky * (ats * 1) with hry
    set rx := j - kx * (ats * 1) with hrx
    have hryv : ry = i - ky * ats := by rw [hry]; ring_nf
    have hrxv : rx = j - kx * ats := by rw [hrx]; ring_nf
    have hry2 : ry < ats := by omega
    have hrx2 : rx < ats := by omega
    have hiry : ky * ats + ry = i := by omega
    have hjrx : kx * ats + rx = j := by omega
    have haxY := axis_read ats p img.h ky ry t (by omega) hats hh0 hh hry2 (by omega)
    have haxX := axis_read ats p img.w kx rx t (by omega) hats hw0 hw hrx2 (by omega)
    show tileVal t p img.h img.w P ky kx (p * 1 + ry) (p * 1 + rx) = P i j
    unfold tileVal
    have hp1 : p * 1 + ry = p + ry := by ring
    have hp2 : p * 1 + rx = p + rx := by ring
    rw [hp1, hp2]
    simp only [← hatsdef]
    rw [if_pos ⟨haxY.1, haxX.1⟩]
    rw [haxY.2, haxX.2, hiry, hjrx]
  rw [hcanvas]
  have hPij : P i j = (img.pix i j : ℚ) / maxValOf img.deep := by
    simp only [hP]
    rw [reflIdx_zero _ _ hi, reflIdx_zero _ _ hj]
  rw [hPij]
  exact toSample_round img.deep (img.pix i j) (hbound i j hi hj)

/-- Concrete 2×2 8-bit image of constant value 7 for the `claim3` witness. -/
def c3img : NImage := ⟨2, 2, false, fun _ _ => 7⟩

/-- Witness for `claim3` at `tileSize 2`, `tilePadding 0`, on `c3img`. -/
theorem claim3_witness :
    (0 < 2 ∧ 2 * 0 < 2 ∧ c3img.h % 2 = 0 ∧ c3img.w % 2 = 0 ∧ 0 < c3img.h ∧ 0 < c3img.w ∧
      (∀ i j, i < c3img.h → j < c3img.w → (c3img.pix i j : ℚ) ≤ maxValOf c3img.deep)) ∧
    (∃ out, processImage 2 0 1 (fun tile => tile) (fun f => f) none none c3img = some out ∧
      out.h = c3img.h ∧ out.w = c3img.w ∧
      ∀ i j, i < c3img.h → j < c3img.w → out.pix i j = c3img.pix i j) := by
  have hbound : ∀ i j, i < c3img.h → j < c3img.w → (c3img.pix i j : ℚ) ≤ maxValOf c3img.deep := by
    intro i j _ _
    norm_num [c3img, maxValOf]
  refine ⟨⟨by norm_num, by norm_num, by norm_num [c3img], by norm_num [c3img],
    by norm_num [c3img], by norm_num [c3img], hbound⟩, ?_⟩
  exact claim3 2 0 (fun f => f) c3img (by norm_num) (by norm_num)
    (by norm_num [c3img]) (by norm_num [c3img]) (by norm_num [c3img]) (by norm_num [c3img]) hbound

/-- Modelled from the spec: canvas value of the brute-force masked path, which
runs inference on every tile (no mask-skip check). -/
def bruteVal (t p s : ℕ) (model : Field → Field) (H W : ℕ) (P : Field) (ky kx : ℕ) :
    ℕ → ℕ → ℚ := fun i j =>
  model (tileVal t p H W P ky kx) (p * s + (i - ky * ((t - 2 * p) * s)))
    (p * s + (j - kx * ((t - 2 * p) * s)))

/-- Modelled from the spec: brute-force tile write — always run the model,
never splice skipped tiles. -/
def writeTileBrute (t p s : ℕ) (model : Field → Field) (H W : ℕ) (P : Field)
    (ky kx : ℕ) (c : Field) : Field :=
  fun i j =>
    let ss := (t - 2 * p) * s
    if ky * ss ≤ i ∧ i < ky * ss + min ss (H * s - ky * ss) ∧
       kx * ss ≤ j ∧ j < kx * ss + min ss (W * s - kx * ss) then
      bruteVal t p s model H W P ky kx i j
    else c i j

/-- Modelled from the spec: the full brute-force masked-blend result — run
inference on every tile in raster order, then apply the full-canvas blend
`mask × modelOutput + (1 − mask) × originalUpscaled`. -/
def processTilesBrute (t p s : ℕ) (model upFn : Field → Field) (H W : ℕ)
    (P : Field) (m : Field) : Field :=
  let origScaled := upFn P
  let canvas := (tileList (ceilDiv H (t - 2 * p)) (ceilDiv W (t - 2 * p))).foldl
    (fun c yx => writeTileBrute t p s model H W P yx.1 yx.2 c) (fun _ _ => 0)
  fun i j => maskScaledF s m i j * canvas i j + (1 - maskScaledF s m i j) * origScaled i j

theorem maskTileSum_zero_at (ats H W : ℕ) (m : Field) (ky kx a b : ℕ)
    (hnn : ∀ i j, 0 ≤ m i j)
    (hsum : ¬ 0 < maskTileSum ats H W m ky kx)
    (ha : a ∈ Finset.Ico (ky * ats) (min ((ky + 1) * ats) H))
    (hb : b ∈ Finset.Ico (kx * ats) (min ((kx + 1) * ats) W)) :
    m a b = 0 := by
  push_neg at hsum
  have hrow_nonneg : ∀ i ∈ Finset.Ico (ky * ats) (min ((ky + 1) * ats) H),
      (0 : ℚ) ≤ ∑ j ∈ Finset.Ico (kx * ats) (min ((kx + 1) * ats) W), m i j := by
    intro i _
    exact Finset.sum_nonneg (fun j _ => hnn i j)
  have hzero : maskTileSum ats H W m ky kx = 0 :=
    le_antisymm hsum (Finset.sum_nonneg hrow_nonneg)
  have hrow := (Finset.sum_eq_zero_iff_of_nonneg hrow_nonneg).mp hzero a ha
  exact (Finset.sum_eq_zero_iff_of_nonneg (fun j _ => hnn a j)).mp hrow b hb

/-- Claim C4: with a non-negative mask field, the tile-processor output with
the skip optimization is pixel-identical to the brute-force path that runs
inference on every tile and then applies the full-canvas blend. -/
theorem claim4 (t p s : ℕ) (model upFn : Field → Field) (H W : ℕ) (P : Field) (m : Field)
    (hs : 0 < s) (hp : 2 * p < t) (hm : ∀ i j, 0 ≤ m i j) :
    ∃ res, processTiles t p s model upFn none H W P (some m) = some res ∧
      ∀ i j, res i j = processTilesBrute t p s model upFn H W P m i j := by
  have hats : 0 < t - 2 * p := by omega
  have hss : 0 < (t - 2 * p) * s := by positivity
  set Copt : Field := (tileList (ceilDiv H (t - 2 * p)) (ceilDiv W (t - 2 * p))).foldl
    (fun c yx => writeTile t p s model H W P (some m) (upFn P) yx.1 yx.2 c)
    (fun _ _ => 0) with hCopt
  set Cbr : Field := (tileList (ceilDiv H (t - 2 * p)) (ceilDiv W (t - 2 * p))).foldl
    (fun c yx => writeTileBrute t p s model H W P yx.1 yx.2 c) (fun _ _ => 0) with hCbr
  have hpt : processTiles t p s model upFn none H W P (some m) =
      some (fun i j => maskScaledF s m i j * Copt i j +
        (1 - maskScaledF s m i j) * upFn P i j) := by
    rw [processTiles, processTilesGo_no_observer]
  refine ⟨_, hpt, ?_⟩
  intro i j
  show maskScaledF s m i j * Copt i j + (1 - maskScaledF s m i j) * upFn P i j =
    processTilesBrute t p s model upFn H W P m i j
  unfold processTilesBrute
  rw [← hCbr]
  have hchar_opt : Copt i j =
      if (i / ((t - 2 * p) * s), j / ((t - 2 * p) * s)) ∈
          tileList (ceilDiv H (t - 2 * p)) (ceilDiv W (t - 2 * p)) ∧
          i < H * s ∧ j < W * s then
        tilePointVal t p s model H W P (some m) (upFn P)
          (i / ((t - 2 * p) * s)) (j / ((t - 2 * p) * s)) i j
      else (0 : ℚ) := by
    rw [hCopt]
    exact foldl_region_writes ((t - 2 * p) * s) (H * s) (W * s) hss _ _
      (fun ky kx c i j => writeTile_eq_region t p s model H W P (some m) (upFn P) ky kx c i j)
      _ _ i j
  have hchar_br : Cbr i j =
      if (i / ((t - 2 * p) * s), j / ((t - 2 * p) * s)) ∈
          tileList (ceilDiv H (t - 2 * p)) (ceilDiv W (t - 2 * p)) ∧
          i < H * s ∧ j < W * s then
        bruteVal t p s model H W P (i / ((t - 2 * p) * s)) (j / ((t - 2 * p) * s)) i j
      else (0 : ℚ) := by
    rw [hCbr]
    exact foldl_region_writes ((t - 2 * p) * s) (H * s) (W * s) hss _ _
      (fun ky kx c i j => rfl) _ _ i j
  by_cases hdom : (i / ((t - 2 * p) * s), j / ((t - 2 * p) * s)) ∈
      tileList (ceilDiv H (t - 2 * p)) (ceilDiv W (t - 2 * p)) ∧ i < H * s ∧ j < W * s
  · rw [hchar_opt, hchar_br, if_pos hdom, if_pos hdom]
    set ky := i / ((t - 2 * p) * s) with hky
    set kx := j / ((t - 2 * p) * s) with hkx
    by_cases hlive : tileHasMaskPixels (t - 2 * p) H W (some m) ky kx = true
    · have : tilePointVal t p s model H W P (some m) (upFn P) ky kx i j =
          bruteVal t p s model H W P ky kx i j := by
        unfold tilePointVal bruteVal
        rw [if_pos hlive]
      rw [this]
    · -- skipped tile: the mask is zero on the whole scaled region
      have hskip : tilePointVal t p s model H W P (some m) (upFn P) ky kx i j = upFn P i j := by
        unfold tilePointVal
        rw [if_neg hlive]
      have hsum : ¬ 0 < maskTileSum (t - 2 * p) H W m ky kx := by
        intro hcon
        apply hlive
        unfold tileHasMaskPixels
        simpa using hcon
      have hms : maskScaledF s m i j = 0 := by
        unfold maskScaledF
        apply maskTileSum_zero_at (t - 2 * p) H W m ky kx _ _ hm hsum
        · rw [Finset.mem_Ico]
          have h1 : ky * ((t - 2 * p) * s) ≤ i := by
            rw [hky]
            exact Nat.div_mul_le_self i _
          have h2 : i < (ky + 1) * ((t - 2 * p) * s) := by
            rw [hky]
            exact lt_div_succ_mul i _ hss
          constructor
          · rw [Nat.le_div_iff_mul_le hs]
            calc ky * (t - 2 * p) * s = ky * ((t - 2 * p) * s) := by ring
              _ ≤ i := h1
          · rw [lt_min_iff]
            constructor
            · rw [Nat.div_lt_iff_lt_mul hs]
              calc i < (ky + 1) * ((t - 2 * p) * s) := h2
                _ = (ky + 1) * (t - 2 * p) * s := by ring
            · rw [Nat.div_lt_iff_lt_mul hs]
              exact hdom.2.1
        · rw [Finset.mem_Ico]
          have h1 : kx * ((t - 2 * p) * s) ≤ j := by
            rw [hkx]
            exact Nat.div_mul_le_self j _
          have h2 : j < (kx + 1) * ((t - 2 * p) * s) := by
            rw [hkx]
            exact lt_div_succ_mul j _ hss
          constructor
          · rw [Nat.le_div_iff_mul_le hs]
            calc kx * (t - 2 * p) * s = kx * ((t - 2 * p) * s) := by ring
              _ ≤ j := h1
          · rw [lt_min_iff]
            constructor
            · rw [Nat.div_lt_iff_lt_mul hs]
              calc j < (kx + 1) * ((t - 2 * p) * s) := h2
                _ = (kx + 1) * (t - 2 * p) * s := by ring
            · rw [Nat.div_lt_iff_lt_mul hs]
              exact hdom.2.2
      rw [hskip, hms]
      ring
  · rw [hchar_opt, hchar_br, if_neg hdom, if_neg hdom]

/-- Witness for `claim4` at a concrete configuration (2×2 image, tile size 2,
no tile padding, scale 1, constant-zero mask). -/
theorem claim4_witness :
    ((0 : ℕ) < 1 ∧ 2 * 0 < 2 ∧ (∀ i j : ℕ, (0 : ℚ) ≤ (fun _ _ => (0 : ℚ)) i j)) ∧
    (∃ res, processTiles 2 0 1 (fun f => f) (fun f => f) none 2 2 (fun _ _ => 1)
        (some (fun _ _ => 0)) = some res ∧
      ∀ i j, res i j = processTilesBrute 2 0 1 (fun f => f) (fun f => f) 2 2
        (fun _ _ => 1) (fun _ _ => 0) i j) :=
  ⟨⟨by norm_num, by norm_num, fun _ _ => le_refl 0⟩,
    claim4 2 0 1 (fun f => f) (fun f => f) 2 2 (fun _ _ => 1) (fun _ _ => 0)
      (by norm_num) (by norm_num) (fun _ _ => le_refl 0)⟩

/-! ### Operation chain (`src/enhance/lib/file.py`, `model_runner.py`, `app.py`, `ui_wrap.py`)

Images at this layer are an abstract type `Img`; the file system is a partial
map from paths to images; the per-operation processing pipeline
(`TileProcessor.process_image` behind a loaded model) is an opaque capability
returning ok / cancelled (returned `None`) / raised. -/

/-- Embedding of the `Operation` enum. -/
inductive Operation where
  | sharpen
  | denoise
  | upscale
  deriving DecidableEq, Repr

/-- Per-operation mask snapshot: the `(uniqueLabel, inverted)` key used by the
UI's set comparison. -/
structure MaskRef where
  uniqueLabel : String
  inverted : Bool
  deriving DecidableEq, Repr

/-- Cache-file paths, abstracted to naturals. -/
abbrev Path := ℕ

/-- Embedding of `AppliedOperation`. -/
structure AppliedOperation where
  operation_type : Operation
  model : String
  modelPath : String
  strength : Option ℚ
  scale : Option ℚ
  masks : List MaskRef
  rawOutputPath : Option Path
  deriving DecidableEq, Repr

/-- The 80% default strength (`AppliedOperation.DEFAULT_STRENGTH`). -/
def defaultStrength : ℚ := 8 / 10

/-- Embedding of `AppliedOperation.__init__`: strength defaults to 0.8 for
Sharpen/Denoise, and for Upscale only when a sub-1.0 scale is requested;
`rawOutputPath` starts unset, `masks` defaults to the empty list. -/
def mkAppliedOperation (operation_type : Operation) (model modelPath : String)
    (strength : Option ℚ) (scale : Option ℚ) (masks : List MaskRef) : AppliedOperation :=
  let strength' :=
    match strength with
    | some s => some s
    | none =>
      if operation_type = .sharpen ∨ operation_type = .denoise then some defaultStrength
      else
        match scale with
        | some sc => if operation_type = .upscale ∧ sc < 1 then some defaultStrength else none
        | none => none
  { operation_type := operation_type, model := model, modelPath := modelPath,
    strength := strength', scale := scale, masks := masks, rawOutputPath := none }

/-- Embedding of `AppliedOperation.supportsStrength`. -/
def AppliedOperation.supportsStrength (op : AppliedOperation) : Bool :=
  match op.operation_type with
  | .sharpen => true
  | .denoise => true
  | .upscale =>
    match op.scale with
    | some sc => decide (sc < 1)
    | none => false

/-- Embedding of `OutputFile` state relevant to the chain: the base file path,
the current rendered path, and the operations list. -/
structure OutputFile where
  basePath : Path
  path : Path
  operations : List AppliedOperation
  deriving DecidableEq, Repr

/-- The on-disk cache as a partial map. -/
def Disk (Img : Type) := Path → Option Img

/-- A successful image write. -/
def diskWrite {Img : Type} (d : Disk Img) (p : Path) (img : Img) : Disk Img :=
  fun q => if q = p then some img else d q

/-- Combined mutable state: the disk and one `OutputFile`. -/
structure St (Img : Type) where
  disk : Disk Img
  file : OutputFile

/-- Embedding of `OutputFile.applyScale`: identity unless `scale < 1.0`; the
actual `cv2.resize(..., INTER_AREA)` is the opaque `scaleB`. -/
def applyScaleOp {Img : Type} (scaleB : Img → AppliedOperation → Img)
    (img : Img) (op : AppliedOperation) : Img :=
  match op.scale with
  | none => img
  | some sc => if 1 ≤ sc then img else scaleB img op

/-- Embedding of `OutputFile.applyStrengthBlending`: identity when strength is
unsupported, unset, or ≥ 1, or when the reference input is unreadable; the
resize-plus-`cv2.addWeighted` blend is the opaque `blendB`. -/
def applyStrengthBlendingOp {Img : Type} (blendB : Img → AppliedOperation → Img → Img)
    (img : Img) (op : AppliedOperation) (inputImg : Option Img) : Img :=
  if op.supportsStrength = false then img
  else
    match op.strength with
    | none => img
    | some s =>
      if 1 ≤ s then img
      else
        match inputImg with
        | none => img
        | some inp => blendB img op inp

/-- One step of the `reapplyStrength` loop: skip (current image passes through
unchanged) when `rawOutputPath` is unset, missing from disk, or unreadable;
otherwise blend the cached raw output against the current image and apply the
scale. -/
def replayStep {Img : Type} (blendB : Img → AppliedOperation → Img → Img)
    (scaleB : Img → AppliedOperation → Img) (d : Disk Img)
    (cur : Img) (op : AppliedOperation) : Img :=
  match op.rawOutputPath with
  | none => cur
  | some rp =>
    match d rp with
    | none => cur
    | some rawImg => applyScaleOp scaleB (applyStrengthBlendingOp blendB rawImg op (some cur)) op

/-- Embedding of `OutputFile.reapplyStrength`: read the base file (returning
`False` with no state change when unreadable), fold the replay step over all
operations, save the result to a fresh cache path and point `path` at it,
returning `True`.  The `operation` argument is ignored by the source. -/
def reapplyStrength {Img : Type} (blendB : Img → AppliedOperation → Img → Img)
    (scaleB : Img → AppliedOperation → Img) (cachePath : Path)
    (_operation : AppliedOperation) (st : St Img) : Bool × St Img :=
  match st.disk st.file.basePath with
  | none => (false, st)
  | some baseImg =>
    let finalImg := st.file.operations.foldl (replayStep blendB scaleB st.disk) baseImg
    (true, ⟨diskWrite st.disk cachePath finalImg, { st.file with path := cachePath }⟩)

/-- Outcome of an opaque processing run: `ok` (an output image), `cancelled`
(`process_image` returned `None`), or `err` (model inference raised). -/
inductive ProcOut (Img : Type) where
  | ok (img : Img)
  | cancelled
  | err

/-- Outcome of `ModelRunner.runOnExisting`: a new state on success, `noResult`
for a returned `None` (no mutation), or `raised` carrying the state at the
point the exception escaped. -/
inductive RunOutcome (Img : Type) where
  | success (st : St Img)
  | noResult
  | raised (st : St Img)

/-- Result of `runOnExisting` plus ghost instrumentation: whether the tile
processor was invoked and how many cache files were written. -/
structure RunRes (Img : Type) where
  outcome : RunOutcome Img
  invoked : Bool
  writes : ℕ

/-- Configuration of one `ModelRunner`: model identity/scale, the
`maintainScale` flag, the opaque processing capability (tile processor with
the combined mask baked in per mask selection), and the opaque blend/resize
primitives. -/
structure RunnerCfg (Img : Type) where
  modelName : String
  modelKey : String
  modelScale : ℕ
  maintainScale : Bool
  proc : List MaskRef → Img → ProcOut Img
  blendB : Img → AppliedOperation → Img → Img
  scaleB : Img → AppliedOperation → Img

/-- The `scaleFactor` computed by `ModelRunner.runOnExisting`:
`1 / model.scale` when maintaining the original dimensions after an upscaling
model, else `None`. -/
def runScaleFactor {Img : Type} (cfg : RunnerCfg Img) : Option ℚ :=
  if cfg.maintainScale = true ∧ 1 < cfg.modelScale then some (1 / (cfg.modelScale : ℚ))
  else none

/-- The operation record appended by `runOnExisting` (strength left to its
default; `rawOutputPath` filled by `saveRawModelOutput` when strength is
supported). -/
def runNewOp {Img : Type} (cfg : RunnerCfg Img) (operation : Operation)
    (masks : List MaskRef) : AppliedOperation :=
  mkAppliedOperation operation cfg.modelName cfg.modelKey none (runScaleFactor cfg) masks

/-- State after the successful tail of `runOnExisting`: append the operation;
when it supports strength, write the raw output, set `rawOutputPath`, and
blend against the pre-operation image re-read from disk; apply the scale; save
to cache and point `path` at it. -/
def runSuccessState {Img : Type} (cfg : RunnerCfg Img) (operation : Operation)
    (masks : List MaskRef) (rawPath cachePath : Path) (st : St Img) (output : Img) : St Img :=
  if (runNewOp cfg operation masks).supportsStrength then
    let op : AppliedOperation :=
      { runNewOp cfg operation masks with rawOutputPath := some rawPath }
    let d1 := diskWrite st.disk rawPath output
    ⟨diskWrite d1 cachePath
        (applyScaleOp cfg.scaleB
          (applyStrengthBlendingOp cfg.blendB output op (d1 st.file.path)) op),
      { st.file with operations := st.file.operations ++ [op], path := cachePath }⟩
  else
    ⟨diskWrite st.disk cachePath (applyScaleOp cfg.scaleB output (runNewOp cfg operation masks)),
      { st.file with
          operations := st.file.operations ++ [runNewOp cfg operation masks],
          path := cachePath }⟩

/-- Embedding of `ModelRunner.runOnExisting`: read the current image (an
unreadable image raises inside `process_image`), run the tile processor
(`None` result → return `None` with no mutation; a model exception propagates
with no mutation), then append the operation, save the raw output when
strength is supported, blend, scale, save to cache, and point `path` at the
new cache file (1 or 2 files written). -/
def runOnExisting {Img : Type} (cfg : RunnerCfg Img) (operation : Operation)
    (masks : List MaskRef) (rawPath cachePath : Path) (st : St Img) : RunRes Img :=
  match st.disk st.file.path with
  | none => ⟨.raised st, false, 0⟩
  | some img =>
    match cfg.proc masks img with
    | .cancelled => ⟨.noResult, true, 0⟩
    | .err => ⟨.raised st, true, 0⟩
    | .ok output =>
      ⟨.success (runSuccessState cfg operation masks rawPath cachePath st output), true,
        if (runNewOp cfg operation masks).supportsStrength then 2 else 1⟩

/-- State the caller is left with: Python mutates the file in place, so a
`None` return or an escaped exception leaves the caller holding the state as
of that moment. -/
def RunRes.finalSt {Img : Type} (r : RunRes Img) (st : St Img) : St Img :=
  match r.outcome with
  | .success s => s
  | .noResult => st
  | .raised s => s

/-- Environment for `App.rerunOperationChain`: per-operation processing
capability keyed by the stored `modelPath`, model-name/scale lookups, blend and
resize primitives, a supply of fresh cache paths per loop iteration
(raw output, runner cache, strength-restore cache), and the paths used by the
reset step. -/
structure ChainEnv (Img : Type) where
  procOf : AppliedOperation → List MaskRef → Img → ProcOut Img
  modelNameOf : String → String
  modelScaleOf : String → ℕ
  blendB : Img → AppliedOperation → Img → Img
  scaleB : Img → AppliedOperation → Img
  pathsAt : ℕ → Path × Path × Path
  resetPath : Path
  resetReapplyPath : Path

/-- The `ModelRunner` the app builds for one re-run:
`ModelRunner(op.modelPath, ..., maintainScale := op.scale is not None and op.scale < 1.0)`. -/
def cfgOf {Img : Type} (env : ChainEnv Img) (op : AppliedOperation) : RunnerCfg Img :=
  { modelName := env.modelNameOf op.modelPath
    modelKey := op.modelPath
    modelScale := env.modelScaleOf op.modelPath
    maintainScale := match op.scale with
      | some sc => decide (sc < 1)
      | none => false
    proc := env.procOf op
    blendB := env.blendB
    scaleB := env.scaleB }

/-- The strength-restoration step after a successful re-run: set the original
strength on the newly appended operation and call `reapplyStrength` (whose
return value the app ignores). -/
def chainStrengthRestore {Img : Type} (env : ChainEnv Img) (reapplyPath : Path)
    (origOp : AppliedOperation) (s : St Img) : St Img :=
  match s.file.operations.getLast? with
  | none => s
  | some newOp =>
    if newOp.supportsStrength = true ∧ origOp.strength.isSome then
      let newOp2 := { newOp with strength := origOp.strength }
      let f2 := { s.file with operations := s.file.operations.dropLast ++ [newOp2] }
      (reapplyStrength env.blendB env.scaleB reapplyPath newOp2 ⟨s.disk, f2⟩).2
    else s

/-- Outcome of `App.rerunOperationChain`: returned `True`, returned `False`,
or an exception escaped. -/
inductive ChainOutcome where
  | ok
  | failed
  | raised
  deriving DecidableEq, Repr

/-- Result of a chain re-run plus the ghost list of chain indices whose re-run
invoked the tile processor (i.e. for which inference was re-run). -/
structure ChainRes (Img : Type) where
  outcome : ChainOutcome
  st : St Img
  inferred : List ℕ

/-- The re-run loop of `App.rerunOperationChain`: for each collected operation
build a runner, call `runOnExisting` (`None` → log and return `False`; an
exception propagates), then restore the original strength. -/
def rerunLoop {Img : Type} (env : ChainEnv Img) :
    List AppliedOperation → ℕ → St Img → List ℕ → ChainRes Img
  | [], _, st, acc => ⟨.ok, st, acc⟩
  | op :: rest, idx, st, acc =>
    match runOnExisting (cfgOf env op) op.operation_type op.masks
        (env.pathsAt idx).1 (env.pathsAt idx).2.1 st with
    | ⟨.raised s, inv, _⟩ => ⟨.raised, s, if inv then acc ++ [idx] else acc⟩
    | ⟨.noResult, inv, _⟩ => ⟨.failed, st, if inv then acc ++ [idx] else acc⟩
    | ⟨.success s, inv, _⟩ =>
      rerunLoop env rest (idx + 1) (chainStrengthRestore env (env.pathsAt idx).2.2 op s)
        (if inv then acc ++ [idx] else acc)

/-- Embedding of `App.rerunOperationChain`: collect the operations from
`startIndex`, truncate the list (`removeOperationsFrom`), reset the current
path (copy of the base file for `startIndex == 0` — raising if the base is
unreadable — otherwise `reapplyStrength` on `operations[-1]`, raising when that
indexing fails), then re-run each collected operation. -/
def rerunOperationChain {Img : Type} (env : ChainEnv Img) (st : St Img)
    (startIndex : ℕ) : ChainRes Img :=
  if startIndex = 0 then
    match st.disk st.file.basePath with
    | none =>
      ⟨.raised, ⟨st.disk, { st.file with operations := st.file.operations.take startIndex }⟩, []⟩
    | some baseImg =>
      rerunLoop env (st.file.operations.drop startIndex) startIndex
        ⟨diskWrite st.disk env.resetPath baseImg,
          { st.file with
              operations := st.file.operations.take startIndex,
              path := env.resetPath }⟩ []
  else
    match (st.file.operations.take startIndex).getLast? with
    | none =>
      ⟨.raised, ⟨st.disk, { st.file with operations := st.file.operations.take startIndex }⟩, []⟩
    | some lastOp =>
      rerunLoop env (st.file.operations.drop startIndex) startIndex
        ((reapplyStrength env.blendB env.scaleB env.resetReapplyPath lastOp
          ⟨st.disk, { st.file with operations := st.file.operations.take startIndex }⟩).2) []

/-- A user edit of one existing operation. -/
inductive OpEdit where
  | strengthEdit (i : ℕ) (newStrength : ℚ)
  | maskEdit (i : ℕ) (newMasks : List MaskRef)

/-- Python set equality of the `(uniqueLabel, inverted)` key tuples
(`_onOperationMasksChanged`). -/
def maskKeySetEq (a b : List MaskRef) : Bool :=
  a.all (fun m => b.contains m) && b.all (fun m => a.contains m)

/-- Embedding of the UI edit dispatch: a strength change goes through
`_applyStrengthChanges` (update the strength, `reapplyStrength`; no tile
processing), a mask-selection change goes through `_onOperationMasksChanged`
(no-op when the key sets are equal, otherwise update the masks and
`App.rerunOperationChain` from that operation's index). -/
def applyEdit {Img : Type} (env : ChainEnv Img) (st : St Img) (e : OpEdit) : ChainRes Img :=
  match e with
  | .strengthEdit i newS =>
    match st.file.operations[i]? with
    | none => ⟨.ok, st, []⟩
    | some op =>
      if op.supportsStrength = true ∧ op.strength ≠ some newS then
        let op2 := { op with strength := some newS }
        let f2 := { st.file with operations := st.file.operations.set i op2 }
        ⟨.ok, (reapplyStrength env.blendB env.scaleB env.resetReapplyPath op2 ⟨st.disk, f2⟩).2, []⟩
      else ⟨.ok, st, []⟩
  | .maskEdit i newMasks =>
    match st.file.operations[i]? with
    | none => ⟨.ok, st, []⟩
    | some op =>
      if maskKeySetEq op.masks newMasks then ⟨.ok, st, []⟩
      else
        let op2 := { op with masks := newMasks }
        let f2 := { st.file with operations := st.file.operations.set i op2 }
        rerunOperationChain env ⟨st.disk, f2⟩ i

theorem diskWrite_total {Img : Type} (d : Disk Img) (p : Path) (img : Img)
    (h : ∀ q, (d q).isSome) : ∀ q, (diskWrite d p img q).isSome := by
  intro q
  unfold diskWrite
  by_cases hq : q = p
  · rw [if_pos hq]
    rfl
  · rw [if_neg hq]
    exact h q

theorem reapplyStrength_total {Img : Type} (bB : Img → AppliedOperation → Img → Img)
    (sB : Img → AppliedOperation → Img) (cp : Path) (op : AppliedOperation) (st : St Img)
    (h : ∀ q, (st.disk q).isSome) :
    ∀ q, ((reapplyStrength bB sB cp op st).2.disk q).isSome := by
  unfold reapplyStrength
  cases hbase : st.disk st.file.basePath with
  | none => simpa using h
  | some b =>
    simp only []
    exact diskWrite_total _ _ _ h

theorem chainStrengthRestore_total {Img : Type} (env : ChainEnv Img) (rp : Path)
    (op : AppliedOperation) (s : St Img) (h : ∀ q, (s.disk q).isSome) :
    ∀ q, ((chainStrengthRestore env rp op s).disk q).isSome := by
  unfold chainStrengthRestore
  cases hl : s.file.operations.getLast? with
  | none => simpa using h
  | some newOp =>
    simp only []
    by_cases hcond : newOp.supportsStrength = true ∧ op.strength.isSome = true
    · rw [if_pos hcond]
      exact reapplyStrength_total _ _ _ _ _ h
    · rw [if_neg hcond]
      exact h

theorem runSuccessState_total {Img : Type} (cfg : RunnerCfg Img) (operation : Operation)
    (masks : List MaskRef) (rawPath cachePath : Path) (st : St Img) (output : Img)
    (h : ∀ q, (st.disk q).isSome) :
    ∀ q, ((runSuccessState cfg operation masks rawPath cachePath st output).disk q).isSome := by
  unfold runSuccessState
  by_cases hs : (runNewOp cfg operation masks).supportsStrength = true
  · rw [if_pos hs]
    exact diskWrite_total _ _ _ (diskWrite_total _ _ _ h)
  · rw [if_neg hs]
    exact diskWrite_total _ _ _ h

theorem runOnExisting_ok {Img : Type} (cfg : RunnerCfg Img) (operation : Operation)
    (masks : List MaskRef) (rawPath cachePath : Path) (st : St Img) (img o : Img)
    (hread : st.disk st.file.path = some img) (hok : cfg.proc masks img = ProcOut.ok o) :
    runOnExisting cfg operation masks rawPath cachePath st =
      ⟨.success (runSuccessState cfg operation masks rawPath cachePath st o), true,
        if (runNewOp cfg operation masks).supportsStrength then 2 else 1⟩ := by
  unfold runOnExisting
  simp only [hread, hok]

theorem rerunLoop_inferred {Img : Type} (env : ChainEnv Img)
    (hproc : ∀ op ms img, ∃ o, env.procOf op ms img = ProcOut.ok o) :
    ∀ (ops : List AppliedOperation) (idx : ℕ) (st : St Img) (acc : List ℕ),
      (∀ q, (st.disk q).isSome) →
      (rerunLoop env ops idx st acc).outcome = .ok ∧
      (rerunLoop env ops idx st acc).inferred = acc ++ List.range' idx ops.length := by
  intro ops
  induction ops with
  | nil =>
    intro idx st acc _
    exact ⟨rfl, by simp [rerunLoop]⟩
  | cons op rest ih =>
    intro idx st acc htot
    obtain ⟨img, hread⟩ := Option.isSome_iff_exists.mp (htot st.file.path)
    obtain ⟨o, hok⟩ := hproc op op.masks img
    have hok2 : (cfgOf env op).proc op.masks img = ProcOut.ok o := hok
    have hrun := runOnExisting_ok (cfgOf env op) op.operation_type op.masks
      (env.pathsAt idx).1 (env.pathsAt idx).2.1 st img o hread hok2
    have htot2 : ∀ q, ((chainStrengthRestore env (env.pathsAt idx).2.2 op
        (runSuccessState (cfgOf env op) op.operation_type op.masks
          (env.pathsAt idx).1 (env.pathsAt idx).2.1 st o)).disk q).isSome :=
      chainStrengthRestore_total _ _ _ _
        (runSuccessState_total _ _ _ _ _ _ _ htot)
    obtain ⟨h1, h2⟩ := ih (idx + 1) _ (acc ++ [idx]) htot2
    rw [rerunLoop]
    simp only [hrun, if_true]
    refine ⟨h1, ?_⟩
    rw [h2, List.length_cons]
    rw [show List.range' idx (rest.length + 1) = idx :: List.range' (idx + 1) rest.length from
      List.range'_succ idx rest.length 1]
    simp

theorem applyEdit_strengthEdit_inferred {Img : Type} (env : ChainEnv Img)
    (st : St Img) (i : ℕ) (s : ℚ) :
    (applyEdit env st (.strengthEdit i s)).inferred = [] := by
  cases hget : st.file.operations[i]? with
  | none => simp only [applyEdit, hget]
  | some op =>
    simp only [applyEdit, hget]
    by_cases hcond : op.supportsStrength = true ∧ op.strength ≠ some s
    · rw [if_pos hcond]
    · rw [if_neg hcond]

theorem applyEdit_maskEdit_inferred {Img : Type} (env : ChainEnv Img)
    (st : St Img) (i : ℕ) (newMasks : List MaskRef) (op : AppliedOperation)
    (htot : ∀ q, (st.disk q).isSome)
    (hproc : ∀ op2 ms img, ∃ o, env.procOf op2 ms img = ProcOut.ok o)
    (hget : st.file.operations[i]? = some op)
    (hkey : maskKeySetEq op.masks newMasks = false) :
    (applyEdit env st (.maskEdit i newMasks)).inferred =
      List.range' i (st.file.operations.length - i) := by
  simp only [applyEdit, hget, hkey, Bool.false_eq_true, if_false]
  set f2 : OutputFile :=
    { st.file with operations := st.file.operations.set i { op with masks := newMasks } }
    with hf2
  have hlen : f2.operations.length = st.file.operations.length := by
    rw [hf2]
    exact List.length_set st.file.operations i _
  have hi_lt : i < st.file.operations.length := by
    by_contra hcon
    push_neg at hcon
    rw [List.getElem?_eq_none hcon] at hget
    cases hget
  unfold rerunOperationChain
  by_cases hi0 : i = 0
  · rw [if_pos hi0]
    obtain ⟨b, hb⟩ := Option.isSome_iff_exists.mp (htot f2.basePath)
    simp only [hb]
    rw [(rerunLoop_inferred env hproc (f2.operations.drop i) i
      ⟨diskWrite st.disk env.resetPath b,
        { f2 with operations := f2.operations.take i, path := env.resetPath }⟩ []
      (diskWrite_total _ _ _ htot)).2]
    rw [List.length_drop, hlen]
    simp
  · rw [if_neg hi0]
    have htake_ne : f2.operations.take i ≠ [] := by
      have h1 : (f2.operations.take i).length = min i f2.operations.length :=
        List.length_take i f2.operations
      intro hcon
      rw [hcon] at h1
      simp at h1
      omega
    obtain ⟨lastOp, hl⟩ := Option.isSome_iff_exists.mp
      (List.getLast?_isSome.mpr htake_ne)
    simp only [hl]
    have htot2 : ∀ q, (((reapplyStrength env.blendB env.scaleB env.resetReapplyPath lastOp
        ⟨st.disk, { f2 with operations := f2.operations.take i }⟩).2).disk q).isSome :=
      reapplyStrength_total _ _ _ _ _ htot
    rw [(rerunLoop_inferred env hproc (f2.operations.drop i) i _ [] htot2).2]
    rw [List.length_drop, hlen]
    simp

/-- Claim C1 amended: a strength-only edit never invokes the tile processor
(the whole chain is re-blended from cached raw outputs by `reapplyStrength`),
while a mask-selection edit of the operation at index `i` re-runs inference for
operation `i` and for every subsequent operation unconditionally — also for
operations whose own strength and masks are unchanged by the edit. -/
theorem claim1_amended {Img : Type} (env : ChainEnv Img) :
    (∀ (st : St Img) (i : ℕ) (s : ℚ),
      (applyEdit env st (.strengthEdit i s)).inferred = []) ∧
    (∀ (st : St Img) (i : ℕ) (newMasks : List MaskRef) (op : AppliedOperation),
      (∀ q, (st.disk q).isSome) →
      (∀ op2 ms img, ∃ o, env.procOf op2 ms img = ProcOut.ok o) →
      st.file.operations[i]? = some op →
      maskKeySetEq op.masks newMasks = false →
      (applyEdit env st (.maskEdit i newMasks)).inferred =
        List.range' i (st.file.operations.length - i)) :=
  ⟨fun st i s => applyEdit_strengthEdit_inferred env st i s,
    fun st i newMasks op htot hproc hget hkey =>
      applyEdit_maskEdit_inferred env st i newMasks op htot hproc hget hkey⟩

/-- Concrete chain environment over token images (`Img := ℕ`): processing
always succeeds and returns the input image. -/
def c1env : ChainEnv ℕ :=
  { procOf := fun _ _ img => .ok img
    modelNameOf := fun s => s
    modelScaleOf := fun _ => 1
    blendB := fun a _ _ => a
    scaleB := fun a _ => a
    pathsAt := fun k => (100 + 3 * k, 101 + 3 * k, 102 + 3 * k)
    resetPath := 50
    resetReapplyPath := 51 }

/-- First chain operation: a sharpen restricted to the mask `person`. -/
def c1op0 : AppliedOperation :=
  mkAppliedOperation .sharpen "m0" "p0" none none [⟨"person", false⟩]

/-- Second chain operation: a denoise with no masks. -/
def c1op1 : AppliedOperation :=
  mkAppliedOperation .denoise "m1" "p1" none none []

/-- Concrete two-operation chain state; every path on disk is readable. -/
def c1st : St ℕ := ⟨fun _ => some 0, ⟨0, 1, [c1op0, c1op1]⟩⟩

/-- Claim C1 is false on the code: editing only the mask selection of the
operation at index 0 re-runs inference for index 1 as well, although
operation 1's own strength and masks are untouched by the edit —
`rerunOperationChain` re-runs every downstream operation through
`runOnExisting` instead of reusing its cached raw output. -/
theorem claim1_counterexample :
    (applyEdit c1env c1st (.maskEdit 0 [])).inferred = [0, 1] ∧
    (1 : ℕ) ∈ (applyEdit c1env c1st (.maskEdit 0 [])).inferred ∧
    c1st.file.operations[1]? = some c1op1 := by
  have h := applyEdit_maskEdit_inferred c1env c1st 0 [] c1op0
    (fun _ => rfl) (fun _ _ img => ⟨img, rfl⟩) rfl rfl
  have h2 : (applyEdit c1env c1st (.maskEdit 0 [])).inferred = [0, 1] := by
    rw [h]
    rfl
  exact ⟨h2, by rw [h2]; decide, rfl⟩

/-- Witness for `claim1_amended` at the concrete two-operation chain. -/
theorem claim1_witness :
    ((applyEdit c1env c1st (.strengthEdit 0 (1/2))).inferred = []) ∧
    ((∀ q, (c1st.disk q).isSome) ∧
      (∀ op2 ms img, ∃ o, c1env.procOf op2 ms img = ProcOut.ok o) ∧
      c1st.file.operations[0]? = some c1op0 ∧
      maskKeySetEq c1op0.masks [] = false) ∧
    (applyEdit c1env c1st (.maskEdit 0 [])).inferred =
      List.range' 0 (c1st.file.operations.length - 0) := by
  have htot : ∀ q, (c1st.disk q).isSome := fun _ => rfl
  have hproc : ∀ op2 ms img, ∃ o, c1env.procOf op2 ms img = ProcOut.ok o :=
    fun _ _ img => ⟨img, rfl⟩
  have hget : c1st.file.operations[0]? = some c1op0 := rfl
  have hkey : maskKeySetEq c1op0.masks [] = false := by decide
  exact ⟨(claim1_amended c1env).1 c1st 0 (1/2), ⟨htot, hproc, hget, hkey⟩,
    (claim1_amended c1env).2 c1st 0 [] c1op0 htot hproc hget hkey⟩

/-- Chain environment over token images whose model inference always raises. -/
def c2env : ChainEnv ℕ :=
  { procOf := fun _ _ _ => .err
    modelNameOf := fun s => s
    modelScaleOf := fun _ => 1
    blendB := fun a _ _ => a
    scaleB := fun a _ => a
    pathsAt := fun k => (100 + 3 * k, 101 + 3 * k, 102 + 3 * k)
    resetPath := 50
    resetReapplyPath := 51 }

/-- A one-operation chain state for the C2 counterexample. -/
def c2st : St ℕ := ⟨fun _ => some 0, ⟨0, 1, [mkAppliedOperation .sharpen "m" "p" none none []]⟩⟩

/-- Claim C2 is false on the code: when model inference raises during a chain
replay from index 0, `rerunOperationChain` has already truncated the
operations list and reset `path`, so the escaped exception leaves the
`OutputFile` with an empty chain and a different current path — not the
pre-operation state. -/
theorem claim2_counterexample :
    (rerunOperationChain c2env c2st 0).outcome = .raised ∧
    (rerunOperationChain c2env c2st 0).st.file.operations = [] ∧
    c2st.file.operations ≠ [] ∧
    (rerunOperationChain c2env c2st 0).st.file.path = 50 ∧
    c2st.file.path = 1 := by
  refine ⟨rfl, rfl, ?_, rfl, rfl⟩
  intro h
  exact absurd h (List.cons_ne_nil _ _)

theorem runOnExisting_err {Img : Type} (cfg : RunnerCfg Img) (operation : Operation)
    (masks : List MaskRef) (rawPath cachePath : Path) (st : St Img) (img : Img)
    (hread : st.disk st.file.path = some img) (herr : cfg.proc masks img = ProcOut.err) :
    runOnExisting cfg operation masks rawPath cachePath st = ⟨.raised st, true, 0⟩ := by
  unfold runOnExisting
  simp only [hread, herr]

theorem rerunLoop_err_head {Img : Type} (env : ChainEnv Img) (op : AppliedOperation)
    (rest : List AppliedOperation) (idx : ℕ) (st : St Img) (acc : List ℕ) (img : Img)
    (hread : st.disk st.file.path = some img)
    (herr : env.procOf op op.masks img = ProcOut.err) :
    rerunLoop env (op :: rest) idx st acc = ⟨.raised, st, acc ++ [idx]⟩ := by
  rw [rerunLoop]
  have herr2 : (cfgOf env op).proc op.masks img = ProcOut.err := herr
  simp only [runOnExisting_err (cfgOf env op) op.operation_type op.masks
    (env.pathsAt idx).1 (env.pathsAt idx).2.1 st img hread herr2, if_true]

theorem reapplyStrength_file_ops {Img : Type} (bB : Img → AppliedOperation → Img → Img)
    (sB : Img → AppliedOperation → Img) (cp : Path) (op : AppliedOperation) (st : St Img) :
    ((reapplyStrength bB sB cp op st).2).file.operations = st.file.operations := by
  unfold reapplyStrength
  cases hbase : st.disk st.file.basePath with
  | none => rfl
  | some b => rfl

/-- Claim C2 amended: a failure before any mutation in a single operation run
(unreadable current image, cancelled processing, model inference raising in
`runOnExisting`) leaves the `OutputFile`'s chain and path unchanged — but
atomicity does not extend to chain replay: `rerunOperationChain` truncates the
operations list and resets the path before re-running, so when inference
raises during the replay the file is left with only the prefix before
`startIndex` (plus any successfully re-run operations), not its pre-call
state. -/
theorem claim2_amended {Img : Type} :
    (∀ (cfg : RunnerCfg Img) (operation : Operation) (masks : List MaskRef)
        (rawPath cachePath : Path) (st s : St Img),
      (runOnExisting cfg operation masks rawPath cachePath st).outcome = .raised s →
        s = st) ∧
    (∀ (cfg : RunnerCfg Img) (operation : Operation) (masks : List MaskRef)
        (rawPath cachePath : Path) (st : St Img),
      (runOnExisting cfg operation masks rawPath cachePath st).outcome = .noResult →
        (runOnExisting cfg operation masks rawPath cachePath st).finalSt st = st) ∧
    (∀ (env : ChainEnv Img) (st : St Img) (startIndex : ℕ),
      (∀ op ms img, env.procOf op ms img = ProcOut.err) →
      (∀ q, (st.disk q).isSome) →
      startIndex < st.file.operations.length →
      (rerunOperationChain env st startIndex).outcome = .raised ∧
      (rerunOperationChain env st startIndex).st.file.operations =
        st.file.operations.take startIndex) := by
  refine ⟨?_, ?_, ?_⟩
  · intro cfg operation masks rawPath cachePath st s h
    unfold runOnExisting at h
    cases hread : st.disk st.file.path with
    | none =>
      simp only [hread] at h
      cases h
      rfl
    | some img =>
      simp only [hread] at h
      cases hproc : cfg.proc masks img with
      | ok o =>
        simp only [hproc] at h
        cases h
      | cancelled =>
        simp only [hproc] at h
        cases h
      | err =>
        simp only [hproc] at h
        cases h
        rfl
  · intro cfg operation masks rawPath cachePath st h
    unfold RunRes.finalSt
    rw [h]
  · intro env st startIndex hperr htot hk
    cases hops : st.file.operations.drop startIndex with
    | nil =>
      have := List.length_drop startIndex st.file.operations
      rw [hops] at this
      simp at this
      omega
    | cons op rest =>
      unfold rerunOperationChain
      by_cases h0 : startIndex = 0
      · rw [if_pos h0]
        obtain ⟨b, hb⟩ := Option.isSome_iff_exists.mp (htot st.file.basePath)
        simp only [hb, hops]
        obtain ⟨img, hread⟩ := Option.isSome_iff_exists.mp
          (diskWrite_total st.disk env.resetPath b htot
            ((⟨diskWrite st.disk env.resetPath b,
              { st.file with
                  operations := st.file.operations.take startIndex,
                  path := env.resetPath }⟩ : St Img)).file.path)
        rw [rerunLoop_err_head env op rest startIndex _ [] img hread
          (hperr op op.masks img)]
        exact ⟨rfl, rfl⟩
      · rw [if_neg h0]
        have htake_ne : st.file.operations.take startIndex ≠ [] := by
          have h1 := List.length_take startIndex st.file.operations
          intro hcon
          rw [hcon] at h1
          simp at h1
          omega
        obtain ⟨lastOp, hl⟩ := Option.isSome_iff_exists.mp
          (List.getLast?_isSome.mpr htake_ne)
        simp only [hl, hops]
        have htot1 : ∀ q,
            (((reapplyStrength env.blendB env.scaleB env.resetReapplyPath lastOp
              ⟨st.disk, { st.file with
                operations := st.file.operations.take startIndex }⟩).2).disk q).isSome :=
          reapplyStrength_total _ _ _ _ _ htot
        obtain ⟨img, hread⟩ := Option.isSome_iff_exists.mp
          (htot1 ((reapplyStrength env.blendB env.scaleB env.resetReapplyPath lastOp
            ⟨st.disk, { st.file with
              operations := st.file.operations.take startIndex }⟩).2).file.path)
        rw [rerunLoop_err_head env op rest startIndex _ [] img hread
          (hperr op op.masks img)]
        refine ⟨rfl, ?_⟩
        rw [reapplyStrength_file_ops]

/-- Witness for `claim2_amended` at the concrete always-raising environment
and one-operation chain. -/
theorem claim2_witness :
    ((∀ op ms img, c2env.procOf op ms img = ProcOut.err) ∧
      (∀ q, (c2st.disk q).isSome) ∧ 0 < c2st.file.operations.length) ∧
    ((rerunOperationChain c2env c2st 0).outcome = .raised ∧
      (rerunOperationChain c2env c2st 0).st.file.operations =
        c2st.file.operations.take 0) := by
  have hperr : ∀ op ms img, c2env.procOf op ms img = ProcOut.err := fun _ _ _ => rfl
  have htot : ∀ q, (c2st.disk q).isSome := fun _ => rfl
  have hlen : 0 < c2st.file.operations.length := by
    show 0 < 1
    norm_num
  exact ⟨⟨hperr, htot, hlen⟩, (@claim2_amended ℕ).2.2 c2env c2st 0 hperr htot hlen⟩

theorem replayStep_skip {Img : Type} (bB : Img → AppliedOperation → Img → Img)
    (sB : Img → AppliedOperation → Img) (d : Disk Img) (cur : Img)
    (op : AppliedOperation) (h : op.rawOutputPath.bind d = none) :
    replayStep bB sB d cur op = cur := by
  cases hro : op.rawOutputPath with
  | none => simp only [replayStep, hro]
  | some rp =>
    rw [hro] at h
    simp only [Option.some_bind] at h
    simp only [replayStep, hro, h]

theorem foldl_replayStep_filter {Img : Type} (bB : Img → AppliedOperation → Img → Img)
    (sB : Img → AppliedOperation → Img) (d : Disk Img) :
    ∀ (ops : List AppliedOperation) (cur : Img),
      ops.foldl (replayStep bB sB d) cur =
        (ops.filter (fun op => (op.rawOutputPath.bind d).isSome)).foldl
          (replayStep bB sB d) cur := by
  intro ops
  induction ops with
  | nil => intro cur; rfl
  | cons op rest ih =>
    intro cur
    by_cases h : (op.rawOutputPath.bind d).isSome = true
    · have hf : (op :: rest).filter (fun x => (x.rawOutputPath.bind d).isSome) =
          op :: rest.filter (fun x => (x.rawOutputPath.bind d).isSome) :=
        List.filter_cons_of_pos (by simpa using h)
      rw [List.foldl_cons, hf, List.foldl_cons, ih]
    · have hnone : op.rawOutputPath.bind d = none := by
        cases hd : op.rawOutputPath.bind d with
        | none => rfl
        | some x => rw [hd] at h; simp at h
      have hf : (op :: rest).filter (fun x => (x.rawOutputPath.bind d).isSome) =
          rest.filter (fun x => (x.rawOutputPath.bind d).isSome) :=
        List.filter_cons_of_neg (by simpa using h)
      rw [List.foldl_cons, hf, replayStep_skip bB sB d cur op hnone, ih]

/-- Claim C8: during chain replay, every operation whose `rawOutputPath` is
unset, missing from disk, or unreadable is skipped (the current image passes
through that step unchanged), the remaining operations still complete (the
saved result is the fold over exactly the readable operations), and the method
returns success rather than raising. -/
theorem claim8 {Img : Type} (blendB : Img → AppliedOperation → Img → Img)
    (scaleB : Img → AppliedOperation → Img) (cachePath : Path) (opArg : AppliedOperation)
    (st : St Img) (img0 : Img) (hbase : st.disk st.file.basePath = some img0) :
    (∀ (op : AppliedOperation) (cur : Img), op.rawOutputPath.bind st.disk = none →
      replayStep blendB scaleB st.disk cur op = cur) ∧
    (reapplyStrength blendB scaleB cachePath opArg st).1 = true ∧
    (reapplyStrength blendB scaleB cachePath opArg st).2.disk cachePath =
      some ((st.file.operations.filter
          (fun op => (op.rawOutputPath.bind st.disk).isSome)).foldl
        (replayStep blendB scaleB st.disk) img0) ∧
    (reapplyStrength blendB scaleB cachePath opArg st).2.file.path = cachePath := by
  refine ⟨fun op cur h => replayStep_skip blendB scaleB st.disk cur op h, ?_, ?_, ?_⟩
  · unfold reapplyStrength
    simp only [hbase]
  · unfold reapplyStrength
    simp only [hbase]
    show diskWrite st.disk cachePath _ cachePath = _
    unfold diskWrite
    rw [if_pos rfl, foldl_replayStep_filter]
  · unfold reapplyStrength
    simp only [hbase]

/-- First operation of the `claim8` witness chain (no cached raw output). -/
def c8op : AppliedOperation :=
  { operation_type := .sharpen, model := "a", modelPath := "pa", strength := some (1/2),
    scale := none, masks := [], rawOutputPath := none }

/-- Concrete three-operation chain for the `claim8` witness: one operation with
no cached raw output, one whose raw path is unreadable, one readable. -/
def c8st : St ℕ :=
  ⟨fun q => if q = 0 then some 1 else (if q = 5 then some 2 else none),
    ⟨0, 1,
      [c8op,
       { operation_type := .denoise, model := "b", modelPath := "pb", strength := some (1/2),
         scale := none, masks := [], rawOutputPath := some 7 },
       { operation_type := .denoise, model := "c", modelPath := "pc", strength := some (1/2),
         scale := none, masks := [], rawOutputPath := some 5 }]⟩⟩

/-- Witness for `claim8` on `c8st` with concrete blend/scale primitives. -/
theorem claim8_witness :
    (c8st.disk c8st.file.basePath = some 1) ∧
    ((∀ (op : AppliedOperation) (cur : ℕ), op.rawOutputPath.bind c8st.disk = none →
        replayStep (fun raw _ cur => raw + 10 * cur) (fun x _ => x) c8st.disk cur op = cur) ∧
      (reapplyStrength (fun raw _ cur => raw + 10 * cur) (fun x _ => x) 9
          c8op c8st).1 = true ∧
      (reapplyStrength (fun raw _ cur => raw + 10 * cur) (fun x _ => x) 9
          c8op c8st).2.disk 9 =
        some ((c8st.file.operations.filter
            (fun op => (op.rawOutputPath.bind c8st.disk).isSome)).foldl
          (replayStep (fun raw _ cur => raw + 10 * cur) (fun x _ => x) c8st.disk) 1) ∧
      (reapplyStrength (fun raw _ cur => raw + 10 * cur) (fun x _ => x) 9
          c8op c8st).2.file.path = 9) :=
  ⟨rfl, claim8 (fun raw _ cur => raw + 10 * cur) (fun x _ => x) 9
    c8op c8st 1 rfl⟩

theorem processTilesGo_interrupted (t p s : ℕ) (model : Field → Field) (H W : ℕ)
    (P : Field) (mask : Option Field) (orig : Field) (interrupt : ℕ → Bool) :
    ∀ (l : List (ℕ × ℕ)) (k0 : ℕ) (c : Field),
      (∃ d, d < l.length ∧ interrupt (k0 + d) = true) →
      processTilesGo t p s model H W P mask orig (some interrupt) l k0 c = none := by
  intro l
  induction l with
  | nil =>
    rintro k0 c ⟨d, hd, _⟩
    simp at hd
  | cons yx rest ih =>
    rintro k0 c ⟨d, hd, hint⟩
    rw [processTilesGo]
    by_cases h0 : obsCheck (some interrupt) k0 = true
    · rw [if_pos h0]
    · rw [if_neg h0]
      apply ih (k0 + 1)
      have hd0 : d ≠ 0 := by
        intro hz
        subst hz
        apply h0
        show interrupt k0 = true
        simpa using hint
      refine ⟨d - 1, ?_, ?_⟩
      · rw [List.length_cons] at hd
        omega
      · have heq : k0 + 1 + (d - 1) = k0 + d := by omega
        rw [heq]
        exact hint

theorem tileFlat_length (xt : ℕ) : ∀ (l : List ℕ),
    (l.flatMap (fun y => (List.range xt).map (fun x => (y, x)))).length = l.length * xt := by
  intro l
  induction l with
  | nil => simp
  | cons a l ih =>
    rw [List.flatMap_cons, List.length_append, List.length_map, List.length_range, ih,
      List.length_cons]
    ring

theorem tileList_length (yt xt : ℕ) : (tileList yt xt).length = yt * xt := by
  unfold tileList
  rw [tileFlat_length, List.length_range]

theorem processImage_interrupted (t p s : ℕ) (model upFn : Field → Field)
    (mask : Option Field) (interrupt : ℕ → Bool) (img : NImage)
    (hint : ∃ k, k < totalTiles t p img ∧ interrupt k = true) :
    processImage t p s model upFn (some interrupt) mask img = none := by
  obtain ⟨k, hk, hi⟩ := hint
  have hgo := processTilesGo_interrupted t p s model
    (img.h + imgPadAmt t img.h) (img.w + imgPadAmt t img.w)
    (fun i j => ((img.pix (reflIdx (imgPadAmt t img.h / 2) img.h i)
        (reflIdx (imgPadAmt t img.w / 2) img.w j) : ℚ)) / maxValOf img.deep)
    (mask.map (fun m => fun i j =>
      if imgPadAmt t img.h / 2 ≤ i ∧ i < imgPadAmt t img.h / 2 + img.h ∧
         imgPadAmt t img.w / 2 ≤ j ∧ j < imgPadAmt t img.w / 2 + img.w then
        m (i - imgPadAmt t img.h / 2) (j - imgPadAmt t img.w / 2) else 0))
    (upFn (fun i j => ((img.pix (reflIdx (imgPadAmt t img.h / 2) img.h i)
        (reflIdx (imgPadAmt t img.w / 2) img.w j) : ℚ)) / maxValOf img.deep))
    interrupt
    (tileList (ceilDiv (img.h + imgPadAmt t img.h) (t - 2 * p))
      (ceilDiv (img.w + imgPadAmt t img.w) (t - 2 * p))) 0 (fun _ _ => 0)
    ⟨k, by rw [tileList_length]; exact hk, by simpa using hi⟩
  simp only [processImage, processTiles]
  rw [hgo]

/-- `TileProcessor.process_image` wrapped as the runner's opaque processing
capability: a `None` return is cancellation (`ModelRunner.runOnExisting` sees
`output is None`). -/
def tileProcCapability (t p s : ℕ) (model upFn : Field → Field) (mask : Option Field)
    (interrupt : ℕ → Bool) : NImage → ProcOut NImage := fun img =>
  match processImage t p s model upFn (some interrupt) mask img with
  | none => .cancelled
  | some o => .ok o

/-- The `ModelRunner` configuration whose processing capability is the actual
tile processor with a cancellation flag. -/
def cancelCfg (t p s : ℕ) (model upFn : Field → Field) (mask : Option Field)
    (interrupt : ℕ → Bool) (mn mk : String) (msc : ℕ) (mts : Bool)
    (blendB : NImage → AppliedOperation → NImage → NImage)
    (scaleB : NImage → AppliedOperation → NImage) : RunnerCfg NImage :=
  ⟨mn, mk, msc, mts, fun _ => tileProcCapability t p s model upFn mask interrupt,
    blendB, scaleB⟩

/-- Claim C5: when the cancellation flag is observed at one of the between-tile
suspension points, the tiled operation returns no output and the caller
(`runOnExisting`) writes no cache or raw-output file, appends no operation, and
leaves the `OutputFile`'s operations and path unchanged. -/
theorem claim5 (t p s : ℕ) (model upFn : Field → Field) (mask : Option Field)
    (interrupt : ℕ → Bool) (mn mk : String) (msc : ℕ) (mts : Bool)
    (blendB : NImage → AppliedOperation → NImage → NImage)
    (scaleB : NImage → AppliedOperation → NImage)
    (operation : Operation) (masksArg : List MaskRef) (rawP cacheP : Path)
    (st : St NImage) (img : NImage)
    (hread : st.disk st.file.path = some img)
    (hint : ∃ k, k < totalTiles t p img ∧ interrupt k = true) :
    (runOnExisting (cancelCfg t p s model upFn mask interrupt mn mk msc mts blendB scaleB)
        operation masksArg rawP cacheP st).outcome = RunOutcome.noResult ∧
    (runOnExisting (cancelCfg t p s model upFn mask interrupt mn mk msc mts blendB scaleB)
        operation masksArg rawP cacheP st).writes = 0 ∧
    (runOnExisting (cancelCfg t p s model upFn mask interrupt mn mk msc mts blendB scaleB)
        operation masksArg rawP cacheP st).finalSt st = st := by
  have hcan : (cancelCfg t p s model upFn mask interrupt mn mk msc mts blendB scaleB).proc
      masksArg img = ProcOut.cancelled := by
    show tileProcCapability t p s model upFn mask interrupt img = _
    unfold tileProcCapability
    rw [processImage_interrupted t p s model upFn mask interrupt img hint]
  have hrun : runOnExisting (cancelCfg t p s model upFn mask interrupt mn mk msc mts blendB scaleB)
      operation masksArg rawP cacheP st = ⟨.noResult, true, 0⟩ := by
    unfold runOnExisting
    simp only [hread, hcan]
  rw [hrun]
  exact ⟨rfl, rfl, rfl⟩

/-- Concrete 1×1 image for the `claim5` witness. -/
def c5img : NImage := ⟨1, 1, false, fun _ _ => 0⟩

/-- Concrete state for the `claim5` witness: the current path reads `c5img`. -/
def c5st : St NImage := ⟨fun _ => some c5img, ⟨0, 1, []⟩⟩

/-- Witness for `claim5`: cancellation requested before the first tile of a
single-tile operation. -/
theorem claim5_witness :
    (c5st.disk c5st.file.path = some c5img ∧
      (∃ k, k < totalTiles 1 0 c5img ∧ (fun _ => true) k = true)) ∧
    ((runOnExisting (cancelCfg 1 0 1 (fun f => f) (fun f => f) none (fun _ => true)
        "m" "k" 1 false (fun a _ _ => a) (fun a _ => a)) .sharpen [] 2 3 c5st).outcome =
          RunOutcome.noResult ∧
      (runOnExisting (cancelCfg 1 0 1 (fun f => f) (fun f => f) none (fun _ => true)
        "m" "k" 1 false (fun a _ _ => a) (fun a _ => a)) .sharpen [] 2 3 c5st).writes = 0 ∧
      (runOnExisting (cancelCfg 1 0 1 (fun f => f) (fun f => f) none (fun _ => true)
        "m" "k" 1 false (fun a _ _ => a) (fun a _ => a)) .sharpen [] 2 3 c5st).finalSt c5st =
          c5st) := by
  have hread : c5st.disk c5st.file.path = some c5img := rfl
  have hint : ∃ k, k < totalTiles 1 0 c5img ∧ (fun _ => true) k = true :=
    ⟨0, by decide, rfl⟩
  exact ⟨⟨hread, hint⟩, claim5 1 0 1 (fun f => f) (fun f => f) none (fun _ => true)
    "m" "k" 1 false (fun a _ _ => a) (fun a _ => a) .sharpen [] 2 3 c5st c5img hread hint⟩

end Enhance
